import Mathlib

/-!
Verification development for the adobe-hackathon-submission repository.

The repository consists of two Python programs:
  * pdf_outline_extractor.py (round 1a): extracts a title and a leveled
    heading outline from each PDF in a directory;
  * main.py (round 1b): segments PDFs into sections under detected
    headings and ranks the sections against a persona query.

This file gives a shallow embedding of both programs.  The external
PDF-parsing collaborator (PyMuPDF) is modelled as data: a document is a
list of pages, a page carries its rectangle dimensions and its
block/line/span decomposition, and the clipped-text extraction operation
of round 1b is modelled as an oracle function attached to each page.
Python floats (font sizes, y coordinates) are modelled as exact rational
numbers; Python `str` values are Lean `String`s, and the handful of
Python string predicates used by the code (strip, split, lower, istitle,
isupper, isdigit, endswith, substring containment) are re-implemented
below over the character list of the string.  Case predicates follow the
ASCII fragment of Python's Unicode semantics, which is what the code
exercises on its English gates.  Exceptions are modelled with `Except`:
a fallible input (a PDF that cannot be opened) is an `Except` value, and
functions that let exceptions propagate are `Except`-valued.
-/

/-- Characters treated as whitespace by Python `str.strip` / `str.split`
(ASCII fragment: space, tab, linefeed, carriage return, vertical tab,
form feed). -/
def isPySpace (c : Char) : Bool :=
  c = ' ' ∨ c = '\t' ∨ c = '\n' ∨ c = '\x0d' ∨ c = '\x0b' ∨ c = '\x0c'

/-- Python `str.strip` on a character list: drop whitespace from both ends. -/
def pyStripL (l : List Char) : List Char :=
  ((l.dropWhile isPySpace).reverse.dropWhile isPySpace).reverse

/-- Python `str.strip`. -/
def pyStrip (s : String) : String := ⟨pyStripL s.data⟩

/-- Number of words of Python `str.split()` (split on whitespace runs,
dropping empty words): we count word starts while scanning. -/
def wordCountAux : List Char → Bool → Nat
  | [], _ => 0
  | c :: rest, inWord =>
    if isPySpace c then wordCountAux rest false
    else (if inWord then 0 else 1) + wordCountAux rest true

/-- Length of Python `line_text.split()`. -/
def wordCount (s : String) : Nat := wordCountAux s.data false

/-- Python `str.lower` (ASCII fragment). -/
def pyLower (s : String) : String := ⟨s.data.map Char.toLower⟩

/-- Python `s.endswith(suffix)`. -/
def pyEndsWith (s suffix : String) : Bool :=
  decide (suffix.data.length ≤ s.data.length) &&
    decide (s.data.drop (s.data.length - suffix.data.length) = suffix.data)

/-- Whether pattern list `p` is a prefix of `l` (helper for Python
substring containment `p in l`). -/
def startsWithL : List Char → List Char → Bool
  | _, [] => true
  | [], _ :: _ => false
  | c :: cs, p :: ps => c = p && startsWithL cs ps

/-- Python substring containment `pat in l`. -/
def infixOfL (pat : List Char) : List Char → Bool
  | [] => startsWithL [] pat
  | c :: rest => startsWithL (c :: rest) pat || infixOfL pat rest

/-- Python `"bold" in font.lower()`, the boldness test of round 1a. -/
def isBoldFont (font : String) : Bool := infixOfL "bold".data (pyLower font).data

/-- Python `str.replace(old, new)` for single characters (used for
newline-to-space normalisation). -/
def pyReplaceChar (s : String) (old new : Char) : String :=
  ⟨s.data.map (fun c => if c = old then new else c)⟩

/-- Python `text.replace('.', '', 1)`: remove only the first dot. -/
def removeFirstDot : List Char → List Char
  | [] => []
  | c :: rest => if c = '.' then rest else c :: removeFirstDot rest

/-- Python `str.isdigit` (ASCII fragment): non-empty and all digits. -/
def pyIsDigitL (l : List Char) : Bool := !l.isEmpty && l.all Char.isDigit

/-- Round 1b `is_not_just_number` test material:
`text.replace('.', '', 1).replace('%', '').replace('+', '').replace('k', '').isdigit()`. -/
def isJustNumber (s : String) : Bool :=
  pyIsDigitL ((removeFirstDot s.data).filter (fun c => !(c = '%' ∨ c = '+' ∨ c = 'k')))

/-- State machine for Python `str.istitle` (ASCII fragment): uppercase
may not follow a cased character, lowercase must follow a cased
character, and at least one cased character must occur. -/
def pyIsTitleAux : List Char → Bool → Bool → Bool
  | [], cased, _ => cased
  | c :: rest, cased, prevCased =>
    if c.isUpper then (if prevCased then false else pyIsTitleAux rest true true)
    else if c.isLower then (if prevCased then pyIsTitleAux rest true true else false)
    else pyIsTitleAux rest cased false

/-- Python `str.istitle` (ASCII fragment). -/
def pyIsTitle (s : String) : Bool := pyIsTitleAux s.data false false

/-- Python `str.isupper` (ASCII fragment): at least one cased character
and no lowercase character. -/
def pyIsUpper (s : String) : Bool := s.data.any Char.isUpper && !(s.data.any Char.isLower)

/-- Python string slicing `s[:n]` (by code points). -/
def pyTake (n : Nat) (s : String) : String := ⟨s.data.take n⟩

/-- Separator-join on character lists (Python `sep.join(parts)`). -/
def joinSepL (sep : List Char) : List (List Char) → List Char
  | [] => []
  | [x] => x
  | x :: y :: t => x ++ sep ++ joinSepL sep (y :: t)

/-- Python `sep.join(parts)` on strings. -/
def joinSepStr (sep : String) (parts : List String) : String :=
  ⟨joinSepL sep.data (parts.map String.data)⟩

/-- ASCII uppercase letter test for the `[A-Z]` character class. -/
def isAsciiUpperAZ (c : Char) : Bool := 'A' ≤ c ∧ c ≤ 'Z'

/-- Drop a `\s*` run. -/
def dropWs (l : List Char) : List Char := l.dropWhile isPySpace

/-- Match `\d+$` (one or more digits then end of string; Python's `$`
also matches just before one final newline). -/
def digitsEnd : List Char → Bool
  | [] => true
  | c :: rest => if c.isDigit then digitsEnd rest else (c = '\n' && rest.isEmpty)

/-- Match `\d+$`, requiring at least one digit. -/
def digitsThenEnd : List Char → Bool
  | [] => false
  | c :: rest => c.isDigit && digitsEnd rest

/-- Round 1a noise pattern `^[A-Z]\s*-\s*\d+$` (page-footer shapes like
`A - 12`), as matched by `re.match` against the whole trimmed string. -/
def noiseDashNum (l : List Char) : Bool :=
  match l with
  | [] => false
  | c :: rest =>
    isAsciiUpperAZ c &&
      (match dropWs rest with
       | '-' :: rest2 => digitsThenEnd (dropWs rest2)
       | _ => false)

/-- Continuation of `\d+/\d+$` after the first digit. -/
def digitsSlashCont : List Char → Bool
  | [] => false
  | c :: rest => if c.isDigit then digitsSlashCont rest else (c = '/' && digitsThenEnd rest)

/-- Match `\d+/\d+$`. -/
def digitsSlashEnd : List Char → Bool
  | [] => false
  | c :: rest => c.isDigit && digitsSlashCont rest

/-- Round 1a noise pattern `^[A-Z]\s*\d+/\d+$` (footer shapes like `A 3/12`). -/
def noiseSlashNum (l : List Char) : Bool :=
  match l with
  | [] => false
  | c :: rest => isAsciiUpperAZ c && digitsSlashEnd (dropWs rest)

/-- Language classification of round 1a `_detect_language`. -/
inductive Lang where
  | japanese
  | chinese
  | korean
  | english
deriving DecidableEq

/-- Round 1a `_detect_language`: character-range detection in priority
order Hiragana/Katakana, CJK Unified Ideographs, Hangul Syllables. -/
def detectLang (s : String) : Lang :=
  if s.data.any (fun c => 0x3040 ≤ c.val ∧ c.val ≤ 0x30ff) then Lang.japanese
  else if s.data.any (fun c => 0x4e00 ≤ c.val ∧ c.val ≤ 0x9fff) then Lang.chinese
  else if s.data.any (fun c => 0xac00 ≤ c.val ∧ c.val ≤ 0xd7a3) then Lang.korean
  else Lang.english

/-- Characters of the class `[一二三四五六七八九十百千万\d]` of the
Japanese chapter/section pattern. -/
def chapterClassChar (c : Char) : Bool :=
  c = '一' ∨ c = '二' ∨ c = '三' ∨ c = '四' ∨ c = '五' ∨ c = '六' ∨ c = '七' ∨
    c = '八' ∨ c = '九' ∨ c = '十' ∨ c = '百' ∨ c = '千' ∨ c = '万' ∨ c.isDigit = true

/-- After `第` and at least one class character: accept on `章`/`節`,
continue through further class characters.  Because `章`/`節` are not in
the numeral class, this greedy scan is equivalent to the backtracking
regex `[一二三四五六七八九十百千万\d]+[章節]`. -/
def chapterRest : List Char → Bool
  | [] => false
  | c :: rest => if c = '章' ∨ c = '節' then true else chapterClassChar c && chapterRest rest

/-- Body of the chapter pattern after `第`: at least one class character,
then `章` or `節`. -/
def chapterBody : List Char → Bool
  | [] => false
  | c :: rest => chapterClassChar c && chapterRest rest

/-- Python `re.search(r'第[一二三四五六七八九十百千万\d]+[章節]', text)`:
try the pattern at every position. -/
def chapterSearch : List Char → Bool
  | [] => false
  | c :: rest => (c = '第' && chapterBody rest) || chapterSearch rest

/-- Font statistics of round 1a `_get_font_stats` (median, 75th and 90th
percentile of the span font sizes). -/
structure FontStats where
  median : ℚ
  p75 : ℚ
  p90 : ℚ
deriving DecidableEq

/-- Round 1a `_is_heading`, translated clause by clause:
Rule 1 rejects a non-bold line at or below `median * 1.15`; Rule 2 is the
length gate `3 < len < 150`; Rule 3 rejects the two footer noise
patterns; Rule 4 rejects more than 12 words, or more than 6 words ending
in a period; then a Japanese line matching the chapter/section pattern is
accepted, then `size > median * 1.2` with boldness, then `size > p75`. -/
def isHeading (t : String) (size : ℚ) (bold : Bool) (st : FontStats) : Bool :=
  if size ≤ st.median * (115/100) ∧ bold = false then false
  else if ¬(3 < t.length ∧ t.length < 150) then false
  else if noiseDashNum t.data = true ∨ noiseSlashNum t.data = true then false
  else if 12 < wordCount t then false
  else if pyEndsWith t "." = true ∧ 6 < wordCount t then false
  else if detectLang t = Lang.japanese ∧ chapterSearch t.data = true then true
  else if st.median * (12/10) < size ∧ bold = true then true
  else if st.p75 < size then true
  else false

/-- The length, noise-pattern and conciseness gates of `_is_heading`
(Rules 2, 3 and 4), as a predicate on the line text alone. -/
def passesGates (t : String) : Prop :=
  (3 < t.length ∧ t.length < 150) ∧
    (noiseDashNum t.data = false ∧ noiseSlashNum t.data = false) ∧
    (wordCount t ≤ 12 ∧ (pyEndsWith t "." = true → wordCount t ≤ 6))

instance (t : String) : Decidable (passesGates t) := by
  unfold passesGates; infer_instance

/-- Characterization of `_is_heading` for lines passing the length,
noise and conciseness gates: the initial size/bold gate (Rule 1) must
also pass, and then one of the three acceptance rules must fire. -/
theorem isHeading_iff_of_gates (t : String) (size : ℚ) (bold : Bool) (st : FontStats)
    (hg : passesGates t) :
    isHeading t size bold st = true ↔
      ((st.median * (115/100) < size ∨ bold = true) ∧
        ((detectLang t = Lang.japanese ∧ chapterSearch t.data = true) ∨
          (st.median * (12/10) < size ∧ bold = true) ∨ st.p75 < size)) := by
  obtain ⟨⟨h1, h2⟩, ⟨h3, h4⟩, h5, h6⟩ := hg
  by_cases hr : size ≤ st.median * (115/100) ∧ bold = false
  · simp only [isHeading, if_pos hr]
    constructor
    · intro h; cases h
    · rintro ⟨hor, -⟩
      rcases hor with h | h
      · exact absurd hr.1 (not_le.mpr h)
      · rw [h] at hr; cases hr.2
  · simp only [isHeading, if_neg hr]
    rw [if_neg (by simp [h1, h2]), if_neg (by simp [h3, h4]),
      if_neg (by omega), if_neg (by rintro ⟨he, hw⟩; have := h6 he; omega)]
    have hrule1 : st.median * (115/100) < size ∨ bold = true := by
      rcases not_and_or.mp hr with h | h
      · exact Or.inl (not_le.mp h)
      · cases bold
        · exact absurd rfl h
        · exact Or.inr rfl
    constructor
    · intro h
      refine ⟨hrule1, ?_⟩
      split_ifs at h with hj hb hp
      · exact Or.inl hj
      · exact Or.inr (Or.inl hb)
      · exact Or.inr (Or.inr hp)
    · rintro ⟨-, hd⟩
      split_ifs with hj hb hp
      · rfl
      · rfl
      · rfl
      · rcases hd with h | h | h
        · exact absurd h hj
        · exact absurd h hb
        · exact absurd h hp

/-- C1: for a line passing the length, noise-pattern and conciseness
gates, acceptance is NOT simply `(size > median * 1.20 and bold) or
size > p75 or Japanese override`: the claim omits Rule 1, which rejects
any non-bold line at or below `median * 1.15` before the three
acceptance rules are consulted.  The correct rule, proved here, also
requires `size > median * 1.15 or bold`. -/
theorem heading_final_acceptance_rule (t : String) (size : ℚ) (bold : Bool)
    (st : FontStats) (hg : passesGates t) :
    isHeading t size bold st = true ↔
      ((st.median * (115/100) < size ∨ bold = true) ∧
        ((detectLang t = Lang.japanese ∧ chapterSearch t.data = true) ∨
          (st.median * (12/10) < size ∧ bold = true) ∨ st.p75 < size)) :=
  isHeading_iff_of_gates t size bold st hg

/-- C1 counterexample: with the all-equal size statistics
`median = p75 = 10` (which `_get_font_stats` produces for a document
whose spans all have size 10), the non-bold line `Hello World` at size 11
passes every gate of the claim and exceeds the 75th percentile, yet
`_is_heading` rejects it at Rule 1 because `11 ≤ 10 * 1.15`. -/
theorem heading_final_acceptance_counterexample :
    passesGates "Hello World" ∧
    (FontStats.p75 ⟨10, 10, 10⟩ < (11 : ℚ)) ∧
    isHeading "Hello World" 11 false ⟨10, 10, 10⟩ = false := by
  refine ⟨by decide, by norm_num, by with_unfolding_all decide⟩

/-- C1 witness: a bold 20pt line over `median = 10` passes the corrected
acceptance rule. -/
theorem heading_final_acceptance_rule_witness :
    passesGates "Overview Chapter" ∧
    isHeading "Overview Chapter" 20 true ⟨10, 14, 16⟩ = true :=
  ⟨by decide,
    (heading_final_acceptance_rule "Overview Chapter" 20 true ⟨10, 14, 16⟩ (by decide)).mpr
      ⟨Or.inr rfl, Or.inr (Or.inl ⟨by with_unfolding_all decide, rfl⟩)⟩⟩

/-- C4 (amended): the Japanese chapter/section override does not bypass
all remaining typographic gates.  It fires only for a line that already
passed Rule 1 (`size > median * 1.15` or bold) and the length, noise and
conciseness gates, and whose language is detected as Japanese (the text
contains Hiragana or Katakana; a kanji-only line is detected as
Chinese).  Given those, a line matching the chapter/section numeral
pattern is accepted regardless of the final size/boldness acceptance
rules. -/
theorem japanese_override_after_gates (t : String) (size : ℚ) (bold : Bool)
    (st : FontStats) (hr : st.median * (115/100) < size ∨ bold = true)
    (hg : passesGates t) (hl : detectLang t = Lang.japanese)
    (hc : chapterSearch t.data = true) :
    isHeading t size bold st = true :=
  (isHeading_iff_of_gates t size bold st hg).mpr ⟨hr, Or.inl ⟨hl, hc⟩⟩

/-- C4 counterexample: the line `第一章 あ` contains Japanese characters
and matches the chapter/section numeral pattern, yet at size 10 over
median 10, non-bold, `_is_heading` rejects it: Rule 1 fires before the
script-aware override is ever consulted. -/
theorem japanese_override_counterexample :
    detectLang "第一章 あ" = Lang.japanese ∧
    chapterSearch "第一章 あ".data = true ∧
    passesGates "第一章 あ" ∧
    isHeading "第一章 あ" 10 false ⟨10, 10, 10⟩ = false := by
  refine ⟨by decide, by decide, by decide, by with_unfolding_all decide⟩

/-- C4 witness: the same line at size 12 (above `10 * 1.15`) is accepted
through the override even though it is non-bold and below p75. -/
theorem japanese_override_after_gates_witness :
    isHeading "第一章 あ" 12 false ⟨10, 20, 30⟩ = true :=
  japanese_override_after_gates "第一章 あ" 12 false ⟨10, 20, 30⟩
    (Or.inl (by with_unfolding_all decide)) (by decide) (by decide) (by decide)

/-- A text span of PyMuPDF's dict extraction, as used by round 1a: its
text, font size, font name and the top y coordinate of its bbox. -/
structure Span1a where
  text : String
  size : ℚ
  font : String
  y : ℚ
deriving DecidableEq

/-- A block of round 1a: image blocks carry no `lines` key, text blocks
carry a list of lines, each line a list of spans. -/
structure Block1a where
  lines : Option (List (List Span1a))
deriving DecidableEq

/-- A page of round 1a: its rectangle dimensions and its blocks. -/
structure Page1a where
  width : ℚ
  height : ℚ
  blocks : List Block1a
deriving DecidableEq

/-- A round 1a document: the metadata title (None when the metadata dict
is falsy or carries no truthy title) and the pages. -/
structure Doc1a where
  metadata : Option String
  pages : List Page1a
deriving DecidableEq

/-- Lines of a block (empty for an image block). -/
def blockLines1a (b : Block1a) : List (List Span1a) := b.lines.getD []

/-- Stable ascending insertion into a sorted list of rationals. -/
def insAsc (acc : List ℚ) (x : ℚ) : List ℚ :=
  match acc with
  | [] => [x]
  | y :: ys => if x < y then x :: y :: ys else y :: insAsc ys x

/-- Python `sorted` on rationals (the multiset-respecting ascending
order; its value list is unique, so any sorting algorithm agrees). -/
def sortAsc (l : List ℚ) : List ℚ := l.foldl insAsc []

/-- Python `statistics.median`: middle element of the sorted data for
odd length, mean of the two middle elements for even length. -/
def pyMedian (l : List ℚ) : ℚ :=
  let s := sortAsc l
  let n := s.length
  if n % 2 = 1 then s.getD (n / 2) 0 else (s.getD (n / 2 - 1) 0 + s.getD (n / 2) 0) / 2

/-- The value form used by `statistics.quantiles`:
`(data[j-1] * (n - delta) + data[j] * delta) / n`.  The integer `delta`
may be negative or exceed `n` when the index was clamped, in which case
this extrapolates along the boundary segment. -/
def interpAt (s : List ℚ) (j : Nat) (delta : ℤ) (n : Nat) : ℚ :=
  (s.getD (j - 1) 0 * ((n : ℚ) - (delta : ℚ)) + s.getD j 0 * (delta : ℚ)) / (n : ℚ)

/-- Python `statistics.quantiles(data, n=n, method='exclusive')[i-1]`:
with `m = len + 1`, rescale `j = i * m // n`, clamp `j` into
`[1, len - 1]`, recompute `delta = i*m - j*n` by exact integer math
after the clamp (so a clamped index extrapolates along the boundary
segment), and interpolate.  (The library raises StatisticsError for
fewer than two data points; callers model that with `Except`.) -/
def pyQuantileExc (l : List ℚ) (i n : Nat) : ℚ :=
  let s := sortAsc l
  let ld := s.length
  let j := min (max (i * (ld + 1) / n) 1) (ld - 1)
  let delta : ℤ := ((i * (ld + 1) : Nat) : ℤ) - ((j * n : Nat) : ℤ)
  interpAt s j delta n

/-- Font sizes collected by `_get_font_stats`: every span with non-blank
text over the first `min(len(doc), 50)` pages, in traversal order. -/
def fontSizes1a (doc : Doc1a) : List ℚ :=
  (((doc.pages.take (min doc.pages.length 50)).map (fun pg =>
    (pg.blocks.map (fun b =>
      ((blockLines1a b).map (fun l =>
        (l.filter (fun sp => decide (pyStrip sp.text ≠ ""))).map (fun sp => sp.size))).flatten)).flatten)).flatten)

/-- Round 1a `_get_font_stats`: fixed fallback for an empty collection,
otherwise median / p75 / p90 by the exclusive quantile method.  With
exactly one data point `statistics.quantiles` raises StatisticsError,
modelled as `Except.error`; the caller's document-boundary handler turns
that into the error result. -/
def getFontStats (doc : Doc1a) : Except Unit FontStats :=
  let sizes := fontSizes1a doc
  if sizes = [] then .ok ⟨12, 14, 16⟩
  else if sizes.length < 2 then .error ()
  else .ok ⟨pyMedian sizes, pyQuantileExc sizes 3 4, pyQuantileExc sizes 9 10⟩

/-- A title candidate of `detect_title`: line text, the first span's
font size and its top y coordinate. -/
structure Cand where
  text : String
  size : ℚ
  y : ℚ
deriving DecidableEq

/-- Title candidates of the first page: every line whose joined
(unstripped) span texts strip to something non-empty and whose first
span starts above 40% of the page height. -/
def titleCandidates (pg : Page1a) : List Cand :=
  ((pg.blocks.map (fun b =>
    (blockLines1a b).filterMap (fun l =>
      match l with
      | [] => none
      | sp :: _ =>
        let t := pyStrip (joinSepStr "" (l.map (fun s => s.text)))
        if t ≠ "" ∧ sp.y < pg.height * (4/10) then some ⟨t, sp.size, sp.y⟩
        else none))).flatten)

/-- One step of selecting `candidates.sort(key=(-size, y))[0]`: keep the
current best unless the new candidate is strictly better (larger size,
or equal size and strictly smaller y).  Folding this from the left picks
the first candidate with the minimal sort key, exactly the head of
Python's stable sort. -/
def pickCand (acc : Option Cand) (c : Cand) : Option Cand :=
  match acc with
  | none => some c
  | some b => if b.size < c.size ∨ (c.size = b.size ∧ c.y < b.y) then some c else some b

/-- The winning title candidate. -/
def bestCand (l : List Cand) : Option Cand := l.foldl pickCand none

/-- The metadata-title branch of `detect_title`: `Some` of the stripped
title when the metadata title is truthy, strips to a non-empty string of
length greater than 4 and does not end (lowercased) in `.pdf`. -/
def metaAccepted (doc : Doc1a) : Option String :=
  match doc.metadata with
  | none => none
  | some raw =>
    if raw = "" then none
    else
      let t := pyStrip raw
      if t ≠ "" ∧ 4 < t.length ∧ pyEndsWith (pyLower t) ".pdf" = false then some t
      else none

/-- Round 1a `detect_title`: metadata title first, then the largest,
topmost first-page candidate, with the fallback `Untitled Document` when
the first page is missing (the `doc[0]` IndexError is caught by the
surrounding try) or yields no candidates. -/
def detect_title (doc : Doc1a) : String :=
  match metaAccepted doc with
  | some t => t
  | none =>
    match doc.pages with
    | [] => "Untitled Document"
    | pg :: _ =>
      match bestCand (titleCandidates pg) with
      | some c => c.text
      | none => "Untitled Document"

/-- An outline entry: level H1/H2/H3, heading text, 1-based page. -/
structure OutlineEntry where
  level : String
  text : String
  page : Nat
deriving DecidableEq

/-- Round 1a `_classify_heading_level`. -/
def classifyLevel (size : ℚ) (st : FontStats) : String :=
  if st.p90 ≤ size then "H1" else if st.p75 ≤ size then "H2" else "H3"

/-- Line text of the round 1a outline scan:
`" ".join(s["text"].strip() for s in line["spans"]).strip()`. -/
def lineText1a (l : List Span1a) : String :=
  pyStrip (joinSepStr " " (l.map (fun sp => pyStrip sp.text)))

/-- The outline scan over the lines of one page, threading the
case-insensitive seen set. -/
def outlineLines (st : FontStats) (pn : Nat) :
    List (List Span1a) → List String → List OutlineEntry × List String
  | [], seen => ([], seen)
  | l :: rest, seen =>
    match l with
    | [] => outlineLines st pn rest seen
    | sp :: _ =>
      let t := lineText1a l
      if t ≠ "" then
        if isHeading t sp.size (isBoldFont sp.font) st then
          if pyLower t ∈ seen then outlineLines st pn rest seen
          else
            let next := outlineLines st pn rest (pyLower t :: seen)
            (⟨classifyLevel sp.size st, t, pn + 1⟩ :: next.1, next.2)
        else outlineLines st pn rest seen
      else outlineLines st pn rest seen

/-- The outline scan over the blocks of one page. -/
def outlineBlocks (st : FontStats) (pn : Nat) :
    List Block1a → List String → List OutlineEntry × List String
  | [], seen => ([], seen)
  | b :: rest, seen =>
    let this := outlineLines st pn (blockLines1a b) seen
    let next := outlineBlocks st pn rest this.2
    (this.1 ++ next.1, next.2)

/-- The outline scan over the scanned pages. -/
def outlinePages (st : FontStats) (pn : Nat) :
    List Page1a → List String → List OutlineEntry × List String
  | [], seen => ([], seen)
  | pg :: rest, seen =>
    let this := outlineBlocks st pn pg.blocks seen
    let next := outlinePages st (pn + 1) rest this.2
    (this.1 ++ next.1, next.2)

/-- The outline of a round 1a document for given font statistics
(the scan of `extract_outline`, over the first `min(len, 50)` pages). -/
def scanOutline (doc : Doc1a) (st : FontStats) : List OutlineEntry :=
  (outlinePages st 0 (doc.pages.take (min doc.pages.length 50)) []).1

/-- The result record of `extract_outline`. -/
structure OutlineResult where
  title : String
  outline : List OutlineEntry
deriving DecidableEq

/-- Round 1a `extract_outline`: a document that fails to open yields the
error result; a zero-page document yields the Empty Document result
before title detection or font profiling run; a StatisticsError raised
by the profiler propagates to the same document-boundary handler;
otherwise the title and the heading scan. -/
def extract_outline (d : Except String Doc1a) : OutlineResult :=
  match d with
  | .error _ => ⟨"Error Processing Document", []⟩
  | .ok doc =>
    if doc.pages.length = 0 then ⟨"Empty Document", []⟩
    else
      match getFontStats doc with
      | .error _ => ⟨"Error Processing Document", []⟩
      | .ok st => ⟨detect_title doc, scanOutline doc st⟩

/-- C10: a PDF that opens successfully but has zero pages yields the
Empty Document result for every metadata value — in particular for
metadata that title detection would have accepted, showing that neither
title detection nor font profiling contributes — and this third title
value differs from both documented fallbacks. -/
theorem empty_document_short_circuit :
    (∀ meta : Option String,
      extract_outline (Except.ok ⟨meta, []⟩) = ⟨"Empty Document", []⟩) ∧
    detect_title ⟨some "A Completely Usable Title", []⟩ = "A Completely Usable Title" ∧
    "Empty Document" ≠ "Untitled Document" ∧
    "Empty Document" ≠ "Error Processing Document" :=
  ⟨fun _ => rfl, by decide, by decide, by decide⟩

/-- Folding `pickCand` from a `some` start always yields a `some`. -/
theorem foldl_pickCand_isSome (l : List Cand) (b : Cand) :
    ∃ c, l.foldl pickCand (some b) = some c := by
  induction l generalizing b with
  | nil => exact ⟨b, rfl⟩
  | cons a l ih =>
    simp only [List.foldl_cons, pickCand]
    split_ifs with h
    · exact ih a
    · exact ih b

/-- Specification of the `pickCand` fold: the result is the start or a
list element, beats the start, and beats every list element in the
(size descending, y ascending) order. -/
theorem foldl_pickCand_spec (l : List Cand) (b c : Cand)
    (h : l.foldl pickCand (some b) = some c) :
    (c = b ∨ c ∈ l) ∧ (b.size ≤ c.size ∧ (b.size = c.size → c.y ≤ b.y)) ∧
      (∀ d ∈ l, d.size ≤ c.size ∧ (d.size = c.size → c.y ≤ d.y)) := by
  induction l generalizing b with
  | nil =>
    simp only [List.foldl_nil, Option.some.injEq] at h
    subst h
    exact ⟨Or.inl rfl, ⟨le_refl _, fun _ => le_refl _⟩, by simp⟩
  | cons a l ih =>
    simp only [List.foldl_cons, pickCand] at h
    by_cases hc : b.size < a.size ∨ (a.size = b.size ∧ a.y < b.y)
    · rw [if_pos hc] at h
      obtain ⟨hm, hb, hall⟩ := ih a h
      refine ⟨?_, ⟨?_, ?_⟩, ?_⟩
      · rcases hm with rfl | hm
        · exact Or.inr (List.mem_cons_self _ _)
        · exact Or.inr (List.mem_cons_of_mem _ hm)
      · rcases hc with h1 | h2
        · exact le_trans (le_of_lt h1) hb.1
        · exact h2.1 ▸ hb.1
      · intro he
        rcases hc with h1 | h2
        · exact absurd h1 (not_lt.mpr (he ▸ hb.1))
        · exact le_trans (hb.2 (h2.1.trans he)) (le_of_lt h2.2)
      · intro d hd
        rcases List.mem_cons.mp hd with rfl | hd
        · exact hb
        · exact hall d hd
    · rw [if_neg hc] at h
      obtain ⟨hm, hb, hall⟩ := ih b h
      push_neg at hc
      refine ⟨?_, hb, ?_⟩
      · rcases hm with rfl | hm
        · exact Or.inl rfl
        · exact Or.inr (List.mem_cons_of_mem _ hm)
      · intro d hd
        rcases List.mem_cons.mp hd with rfl | hd
        · refine ⟨le_trans hc.1 hb.1, fun he => ?_⟩
          have hba : b.size = d.size := le_antisymm (he ▸ hb.1) hc.1
          exact le_trans (hb.2 (hba.trans he)) (hc.2 hba.symm)
        · exact hall d hd

/-- A non-empty candidate list has a winner. -/
theorem bestCand_isSome (l : List Cand) (h : l ≠ []) : ∃ c, bestCand l = some c := by
  cases l with
  | nil => exact absurd rfl h
  | cons a l => exact foldl_pickCand_isSome l a

/-- The winner is a candidate with the largest size and, among those,
the smallest y. -/
theorem bestCand_spec (l : List Cand) (c : Cand) (h : bestCand l = some c) :
    c ∈ l ∧ ∀ d ∈ l, d.size ≤ c.size ∧ (d.size = c.size → c.y ≤ d.y) := by
  cases l with
  | nil => cases h
  | cons a l =>
    have h2 : l.foldl pickCand (some a) = some c := h
    obtain ⟨hm, hb, hall⟩ := foldl_pickCand_spec l a c h2
    refine ⟨?_, ?_⟩
    · rcases hm with rfl | hm
      · exact List.mem_cons_self _ _
      · exact List.mem_cons_of_mem _ hm
    · intro d hd
      rcases List.mem_cons.mp hd with rfl | hd
      · exact hb
      · exact hall d hd

/-- Every title candidate carries a non-empty text. -/
theorem titleCandidates_text_ne (pg : Page1a) (c : Cand)
    (h : c ∈ titleCandidates pg) : c.text ≠ "" := by
  simp only [titleCandidates, List.mem_flatten, List.mem_map] at h
  obtain ⟨cs, ⟨b, hb, rfl⟩, hc⟩ := h
  simp only [List.mem_filterMap] at hc
  obtain ⟨l, hl, hf⟩ := hc
  cases l with
  | nil => cases hf
  | cons sp rest =>
    dsimp only at hf
    split_ifs at hf with hcond
    · injection hf with hf
      subst hf
      exact hcond.1

/-- An accepted metadata title is non-empty. -/
theorem metaAccepted_ne (doc : Doc1a) (t : String)
    (h : metaAccepted doc = some t) : t ≠ "" := by
  cases hm : doc.metadata with
  | none => simp only [metaAccepted, hm] at h; cases h
  | some raw =>
    simp only [metaAccepted, hm] at h
    split_ifs at h with h1 h2
    · injection h with h
      subst h
      exact h2.1

/-- C7: title detection always returns a non-empty string; an accepted
metadata title is returned as stripped; otherwise the candidate with the
largest first-span font size (ties broken by smallest y) among
top-40% first-page lines is returned; otherwise, including the
zero-page case whose IndexError the local catch absorbs, the literal
fallback is returned. -/
theorem title_detection_contract (doc : Doc1a) :
    detect_title doc ≠ "" ∧
    (∀ t, metaAccepted doc = some t → detect_title doc = t) ∧
    (∀ pg rest, metaAccepted doc = none → doc.pages = pg :: rest →
      titleCandidates pg ≠ [] →
      ∃ c, c ∈ titleCandidates pg ∧ detect_title doc = c.text ∧
        ∀ d ∈ titleCandidates pg, d.size ≤ c.size ∧ (d.size = c.size → c.y ≤ d.y)) ∧
    (∀ pg rest, metaAccepted doc = none → doc.pages = pg :: rest →
      titleCandidates pg = [] → detect_title doc = "Untitled Document") ∧
    (metaAccepted doc = none → doc.pages = [] →
      detect_title doc = "Untitled Document") := by
  refine ⟨?_, ?_, ?_, ?_, ?_⟩
  · cases hma : metaAccepted doc with
    | some t =>
      have ht := metaAccepted_ne doc t hma
      simp only [detect_title, hma]
      exact ht
    | none =>
      cases hpg : doc.pages with
      | nil => simp only [detect_title, hma, hpg]; decide
      | cons pg rest =>
        cases hbc : bestCand (titleCandidates pg) with
        | none => simp only [detect_title, hma, hpg, hbc]; decide
        | some c =>
          have hmem := (bestCand_spec _ c hbc).1
          have := titleCandidates_text_ne pg c hmem
          simp only [detect_title, hma, hpg, hbc]
          exact this
  · intro t h
    simp only [detect_title, h]
  · intro pg rest hma hpg hne
    obtain ⟨c, hc⟩ := bestCand_isSome _ hne
    obtain ⟨hmem, hall⟩ := bestCand_spec _ c hc
    exact ⟨c, hmem, by simp only [detect_title, hma, hpg, hc], hall⟩
  · intro pg rest hma hpg hnil
    simp only [detect_title, hma, hpg, hnil]
    rfl
  · intro hma hpg
    simp only [detect_title, hma, hpg]

/-- C7 witness: a well-formed metadata title is returned verbatim. -/
theorem title_detection_contract_witness :
    detect_title ⟨some "Annual Report 2023", []⟩ = "Annual Report 2023" :=
  (title_detection_contract ⟨some "Annual Report 2023", []⟩).2.1
    "Annual Report 2023" (by decide)

/-- Inserting into a sorted accumulator adds one element. -/
theorem length_insAsc (acc : List ℚ) (x : ℚ) :
    (insAsc acc x).length = acc.length + 1 := by
  induction acc with
  | nil => rfl
  | cons y ys ih =>
    simp only [insAsc]
    split_ifs with h
    · simp
    · simp [ih]

/-- Sorting preserves length. -/
theorem length_sortAsc (l : List ℚ) : (sortAsc l).length = l.length := by
  suffices h : ∀ acc : List ℚ, (l.foldl insAsc acc).length = acc.length + l.length by
    simpa using h []
  induction l with
  | nil => intro acc; simp
  | cons a l ih =>
    intro acc
    simp only [List.foldl_cons, List.length_cons, ih, length_insAsc]
    omega

/-- Membership through insertion. -/
theorem mem_insAsc (acc : List ℚ) (x z : ℚ) :
    z ∈ insAsc acc x ↔ z ∈ acc ∨ z = x := by
  induction acc with
  | nil => simp [insAsc]
  | cons y ys ih =>
    simp only [insAsc]
    split_ifs with h
    · simp only [List.mem_cons]
      tauto
    · simp only [List.mem_cons, ih]
      tauto

/-- Inserting into an ascending-sorted list keeps it sorted. -/
theorem pairwise_insAsc (acc : List ℚ) (x : ℚ) (h : acc.Pairwise (· ≤ ·)) :
    (insAsc acc x).Pairwise (· ≤ ·) := by
  induction acc with
  | nil => simp [insAsc]
  | cons y ys ih =>
    obtain ⟨hy, hys⟩ := List.pairwise_cons.mp h
    simp only [insAsc]
    split_ifs with hxy
    · refine List.pairwise_cons.mpr ⟨?_, h⟩
      intro z hz
      rcases List.mem_cons.mp hz with rfl | hz
      · exact le_of_lt hxy
      · exact le_trans (le_of_lt hxy) (hy z hz)
    · refine List.pairwise_cons.mpr ⟨?_, ih hys⟩
      intro z hz
      rcases (mem_insAsc ys x z).mp hz with hz | rfl
      · exact hy z hz
      · exact not_lt.mp hxy

/-- The Python sort is ascending-sorted. -/
theorem sorted_sortAsc (l : List ℚ) : (sortAsc l).Pairwise (· ≤ ·) := by
  suffices h : ∀ acc : List ℚ, acc.Pairwise (· ≤ ·) →
      (l.foldl insAsc acc).Pairwise (· ≤ ·) from h [] (by simp)
  induction l with
  | nil => exact fun acc h => h
  | cons a l ih =>
    intro acc hacc
    exact ih _ (pairwise_insAsc acc a hacc)

/-- Indexing a sorted list is monotone. -/
theorem sorted_getD_mono (s : List ℚ) (hs : s.Pairwise (· ≤ ·)) (i j : Nat)
    (hij : i ≤ j) (hj : j < s.length) : s.getD i 0 ≤ s.getD j 0 := by
  rcases eq_or_lt_of_le hij with rfl | hlt
  · exact le_refl _
  · have hi : i < s.length := lt_trans hlt hj
    have hR := List.pairwise_iff_getElem.mp hs i j hi hj hlt
    rw [List.getD_eq_getElem?_getD, List.getD_eq_getElem?_getD,
      List.getElem?_eq_getElem hi, List.getElem?_eq_getElem hj]
    simpa using hR

/-- The interpolated quantile value in slope form. -/
theorem interpAt_eq_slope (s : List ℚ) (j : Nat) (delta : ℤ) (n : Nat) (hn : 0 < n) :
    interpAt s j delta n =
      s.getD (j - 1) 0 + (s.getD j 0 - s.getD (j - 1) 0) * ((delta : ℚ) / (n : ℚ)) := by
  have hn0 : (n : ℚ) ≠ 0 := by exact_mod_cast hn.ne.symm
  unfold interpAt
  field_simp
  ring

/-- For a nonnegative remainder, the interpolated value is at least its
left endpoint. -/
theorem interpAt_lower (s : List ℚ) (hs : s.Pairwise (· ≤ ·)) (j : Nat) (delta : ℤ)
    (n : Nat) (hj1 : 1 ≤ j) (hj2 : j < s.length) (hd : 0 ≤ delta) (hn : 0 < n) :
    s.getD (j - 1) 0 ≤ interpAt s j delta n := by
  rw [interpAt_eq_slope s j delta n hn]
  have hab : s.getD (j - 1) 0 ≤ s.getD j 0 :=
    sorted_getD_mono s hs (j - 1) j (by omega) hj2
  have hdq : (0 : ℚ) ≤ (delta : ℚ) := by exact_mod_cast hd
  have hnq : (0 : ℚ) ≤ (n : ℚ) := Nat.cast_nonneg n
  have hf : (0 : ℚ) ≤ (delta : ℚ) / (n : ℚ) := div_nonneg hdq hnq
  nlinarith [mul_nonneg (sub_nonneg.mpr hab) hf]

/-- For a remainder at most `n`, the interpolated value is at most its
right endpoint. -/
theorem interpAt_upper (s : List ℚ) (hs : s.Pairwise (· ≤ ·)) (j : Nat) (delta : ℤ)
    (n : Nat) (hj1 : 1 ≤ j) (hj2 : j < s.length) (hd : delta ≤ (n : ℤ)) (hn : 0 < n) :
    interpAt s j delta n ≤ s.getD j 0 := by
  rw [interpAt_eq_slope s j delta n hn]
  have hab : s.getD (j - 1) 0 ≤ s.getD j 0 :=
    sorted_getD_mono s hs (j - 1) j (by omega) hj2
  have hn0 : (0 : ℚ) < (n : ℚ) := by exact_mod_cast hn
  have hf : (delta : ℚ) / (n : ℚ) ≤ 1 := by
    rw [div_le_one hn0]
    exact_mod_cast hd
  nlinarith [mul_le_mul_of_nonneg_left hf (sub_nonneg.mpr hab)]

/-- Monotonicity of the exclusive-quantile evaluation over a sorted
list: a smaller exact position yields a smaller value, provided the
integer parts agree, or they move up while the left remainder is at
most its denominator and the right remainder is nonnegative. -/
theorem interpAt_mono (s : List ℚ) (hs : s.Pairwise (· ≤ ·))
    (j1 : Nat) (d1 : ℤ) (n1 : Nat) (j2 : Nat) (d2 : ℤ) (n2 : Nat)
    (hj11 : 1 ≤ j1) (hj12 : j1 < s.length) (hj21 : 1 ≤ j2) (hj22 : j2 < s.length)
    (hn1 : 0 < n1) (hn2 : 0 < n2)
    (hpos : (j1 : ℚ) + (d1 : ℚ) / (n1 : ℚ) ≤ (j2 : ℚ) + (d2 : ℚ) / (n2 : ℚ))
    (hcase : j1 = j2 ∨ (j1 < j2 ∧ d1 ≤ (n1 : ℤ) ∧ 0 ≤ d2)) :
    interpAt s j1 d1 n1 ≤ interpAt s j2 d2 n2 := by
  rcases hcase with heq | ⟨hlt, hub, hlb⟩
  · subst heq
    have hab : s.getD (j1 - 1) 0 ≤ s.getD j1 0 :=
      sorted_getD_mono s hs (j1 - 1) j1 (by omega) hj12
    have hfrac : (d1 : ℚ) / (n1 : ℚ) ≤ (d2 : ℚ) / (n2 : ℚ) := by linarith
    rw [interpAt_eq_slope s j1 d1 n1 hn1, interpAt_eq_slope s j1 d2 n2 hn2]
    nlinarith [mul_le_mul_of_nonneg_left hfrac (sub_nonneg.mpr hab)]
  · calc interpAt s j1 d1 n1 ≤ s.getD j1 0 :=
          interpAt_upper s hs j1 d1 n1 hj11 hj12 hub hn1
      _ ≤ s.getD (j2 - 1) 0 := sorted_getD_mono s hs j1 (j2 - 1) (by omega) (by omega)
      _ ≤ interpAt s j2 d2 n2 :=
          interpAt_lower s hs j2 d2 n2 hj21 hj22 hlb hn2

/-- The position identity of the exact-integer-math remainder: for any
index `j` whatsoever, `j + (a - j*n)/n = a/n` over the rationals. -/
theorem clamp_pos_decomp (a j n : Nat) (hn : 0 < n) :
    (j : ℚ) + ((((a : Nat) : ℤ) - ((j * n : Nat) : ℤ) : ℤ) : ℚ) / (n : ℚ) =
      (a : ℚ) / (n : ℚ) := by
  have hn0 : (n : ℚ) ≠ 0 := by exact_mod_cast hn.ne.symm
  field_simp

/-- Python's median coincides with the exclusive interpolation evaluated
at index `(len + 1) / 2` with the exact-integer-math remainder. -/
theorem pyMedian_eq_interpAt (l : List ℚ) (h2 : 2 ≤ l.length) :
    pyMedian l =
      interpAt (sortAsc l) ((l.length + 1) / 2)
        (((l.length + 1 : Nat) : ℤ) - (((l.length + 1) / 2 * 2 : Nat) : ℤ)) 2 := by
  have hlen := length_sortAsc l
  rcases Nat.even_or_odd l.length with ⟨k, hk⟩ | ⟨k, hk⟩
  · have e1 : (l.length + 1) / 2 = k := by omega
    have e2 : ((l.length + 1 : Nat) : ℤ) - ((k * 2 : Nat) : ℤ) = 1 := by omega
    have e4 : l.length / 2 = k := by omega
    simp only [pyMedian, interpAt, hlen, e1, e2, e4]
    rw [if_neg (by omega : ¬ l.length % 2 = 1)]
    push_cast
    ring
  · have e1 : (l.length + 1) / 2 = k + 1 := by omega
    have e2 : ((l.length + 1 : Nat) : ℤ) - (((k + 1) * 2 : Nat) : ℤ) = 0 := by omega
    have e4 : l.length / 2 = k := by omega
    have e5 : k + 1 - 1 = k := by omega
    simp only [pyMedian, interpAt, hlen, e1, e2, e4, e5]
    rw [if_pos (by omega : l.length % 2 = 1)]
    push_cast
    ring

/-- Unfolding `pyQuantileExc`: clamp the rescaled index into
`[1, len - 1]`, then recompute the remainder by exact integer math. -/
theorem pyQuantileExc_eq_interpAt (l : List ℚ) (i n : Nat) :
    pyQuantileExc l i n =
      interpAt (sortAsc l) (min (max (i * (l.length + 1) / n) 1) (l.length - 1))
        (((i * (l.length + 1) : Nat) : ℤ) -
          ((min (max (i * (l.length + 1) / n) 1) (l.length - 1) * n : Nat) : ℤ)) n := by
  simp only [pyQuantileExc, length_sortAsc]

/-- C8 (amended): with at least two non-blank span sizes in the scanned
window the profiler succeeds and its result satisfies
`median ≤ p75 ≤ p90` (the exclusive quantile method recomputes its
interpolation remainder by exact integer math after clamping the index,
so the evaluation stays monotone in the exact position even when a
clamped index extrapolates); with no sizes it returns exactly the fixed
fallback; but with exactly one size `statistics.quantiles` raises
StatisticsError, so the profiler fails instead of returning a result. -/
theorem font_stats_monotone_or_fallback (doc : Doc1a) :
    (2 ≤ (fontSizes1a doc).length →
      ∃ st, getFontStats doc = .ok st ∧ st.median ≤ st.p75 ∧ st.p75 ≤ st.p90) ∧
    (fontSizes1a doc = [] → getFontStats doc = .ok ⟨12, 14, 16⟩) ∧
    ((fontSizes1a doc).length = 1 → getFontStats doc = .error ()) := by
  refine ⟨?_, ?_, ?_⟩
  · intro h2
    set l := fontSizes1a doc with hl
    have hne : ¬ l = [] := by
      intro h
      rw [h] at h2
      simp at h2
    have hlt : ¬ l.length < 2 := by omega
    have hs := sorted_sortAsc l
    have hlen := length_sortAsc l
    refine ⟨⟨pyMedian l, pyQuantileExc l 3 4, pyQuantileExc l 9 10⟩, ?_, ?_, ?_⟩
    · simp only [getFontStats, ← hl, if_neg hne, if_neg hlt]
    · rw [pyMedian_eq_interpAt l (by omega), pyQuantileExc_eq_interpAt l 3 4]
      apply interpAt_mono (sortAsc l) hs
      · omega
      · omega
      · omega
      · omega
      · omega
      · omega
      · rw [clamp_pos_decomp (l.length + 1) ((l.length + 1) / 2) 2 (by omega),
          clamp_pos_decomp (3 * (l.length + 1))
            (min (max (3 * (l.length + 1) / 4) 1) (l.length - 1)) 4 (by omega)]
        have hnn : (0 : ℚ) ≤ (l.length : ℚ) := Nat.cast_nonneg _
        push_cast
        linarith
      · omega
    · rw [pyQuantileExc_eq_interpAt l 3 4, pyQuantileExc_eq_interpAt l 9 10]
      apply interpAt_mono (sortAsc l) hs
      · omega
      · omega
      · omega
      · omega
      · omega
      · omega
      · rw [clamp_pos_decomp (3 * (l.length + 1))
            (min (max (3 * (l.length + 1) / 4) 1) (l.length - 1)) 4 (by omega),
          clamp_pos_decomp (9 * (l.length + 1))
            (min (max (9 * (l.length + 1) / 10) 1) (l.length - 1)) 10 (by omega)]
        have hnn : (0 : ℚ) ≤ (l.length : ℚ) := Nat.cast_nonneg _
        push_cast
        linarith
      · omega
  · intro h
    simp only [getFontStats, h]
    rfl
  · intro h1
    have hne : ¬ fontSizes1a doc = [] := by
      intro h
      rw [h] at h1
      simp at h1
    have hlt : (fontSizes1a doc).length < 2 := by omega
    simp only [getFontStats, if_neg hne, if_pos hlt]

deriving instance DecidableEq for Except

/-- A document whose scanned window contains exactly two non-blank
spans, of sizes 10 and 20. -/
def docTwoSpans : Doc1a :=
  ⟨none, [⟨612, 792,
    [⟨some [[⟨"alpha", 10, "Helvetica", 100⟩, ⟨"beta", 20, "Helvetica", 100⟩]]⟩]⟩]⟩

/-- A document whose scanned window contains one non-blank span. -/
def docOneSpan : Doc1a :=
  ⟨none, [⟨612, 792, [⟨some [[⟨"alpha", 10, "Helvetica", 100⟩]]⟩]⟩]⟩

/-- C8 counterexample: for the one-span document the profiler raises
(`statistics.quantiles` demands at least two data points), so no font
statistics are returned at all for that document. -/
theorem font_stats_one_span_counterexample :
    getFontStats docOneSpan = .error () ∧ (fontSizes1a docOneSpan).length = 1 := by
  constructor
  · with_unfolding_all decide
  · decide

/-- C8 witness: the two-span document with sizes 10 and 20 yields the
monotone chain 15 ≤ 22.5 ≤ 27 (the p75 and p90 indices are clamped and
the values extrapolated, yet the chain holds), and the empty document
yields the fixed fallback. -/
theorem font_stats_monotone_or_fallback_witness :
    (∃ st, getFontStats docTwoSpans = .ok st ∧ st.median ≤ st.p75 ∧ st.p75 ≤ st.p90) ∧
    getFontStats docTwoSpans = .ok ⟨15, 45/2, 27⟩ ∧
    getFontStats (⟨none, []⟩ : Doc1a) = .ok ⟨12, 14, 16⟩ :=
  ⟨(font_stats_monotone_or_fallback docTwoSpans).1 (by decide),
   by with_unfolding_all decide,
   (font_stats_monotone_or_fallback ⟨none, []⟩).2.1 (by decide)⟩

/-- A text span of round 1b: text, font size and the top y coordinate
of its bbox (round 1b never reads the font name). -/
structure Span1b where
  text : String
  size : ℚ
  y : ℚ
deriving DecidableEq

/-- A block of round 1b: image blocks carry no `lines` key. -/
structure Block1b where
  lines : Option (List (List Span1b))
deriving DecidableEq

/-- A page of round 1b: rectangle dimensions, dict blocks, and the
PDF parser's clipped text extraction as an oracle.  `clip y0 y1`
models `page.get_text("text", clip=fitz.Rect(0, y0, page.rect.width,
y1))`; the bottom bound is `none` for `float('inf')` (a value the
section loop constructs but, as proved below, never passes to the
parser).  The `blocks`-mode view used by the fallback is derived from
the dict blocks: a text block's tuple text is its lines' concatenated
span texts joined by newlines, and an image block contributes no text. -/
structure Page1b where
  width : ℚ
  height : ℚ
  blocks : List Block1b
  clip : ℚ → Option ℚ → String

/-- A round 1b document. -/
structure Doc1b where
  pages : List Page1b

/-- Lines of a round 1b block (empty for an image block). -/
def blockLines1b (b : Block1b) : List (List Span1b) := b.lines.getD []

/-- The page-count cap of round 1b. -/
def MAX_PAGES_TO_PROCESS : Nat := 75

/-- The scanned page window `doc[0 : min(len(doc), 75)]`. -/
def scannedPages (doc : Doc1b) : List Page1b :=
  doc.pages.take (min doc.pages.length MAX_PAGES_TO_PROCESS)

/-- Pass 1 of round 1b: font sizes of all non-blank spans over the
scanned window, in traversal order. -/
def fontSizes1b (doc : Doc1b) : List ℚ :=
  ((((scannedPages doc).map (fun pg =>
    (pg.blocks.map (fun b =>
      ((blockLines1b b).map (fun l =>
        (l.filter (fun sp => decide (pyStrip sp.text ≠ ""))).map
          (fun sp => sp.size))).flatten)).flatten)).flatten))

/-- The allow-list of single-word headings of round 1b. -/
def allowedSingleWords : List String :=
  ["content", "contents", "notice", "introduction", "summary", "conclusion",
    "appendix", "glossary", "financials", "operations", "value"]

/-- The seven-way heading test of round 1b pass 2 (large, not just a
number, length, not a sentence, title or upper case, concise, valid
single word). -/
def acceptHeading1b (median : ℚ) (t : String) (size : ℚ) : Bool :=
  let word_count := wordCount t
  (median * (12/10) < size : Bool) &&
    !isJustNumber t &&
    (3 < t.length && t.length < 150) &&
    (!pyEndsWith t "." && !pyEndsWith t ",") &&
    (pyIsTitle t || pyIsUpper t) &&
    (word_count < 10) &&
    (1 < word_count || (word_count = 1 && decide (pyLower t ∈ allowedSingleWords)))

/-- A heading candidate of round 1b: text, 0-based page, y position. -/
structure Hd1b where
  text : String
  page : Nat
  y : ℚ
deriving DecidableEq

/-- Pass 2 on one line: the text is the unstripped span texts joined by
spaces and then stripped; the representative span is the first one; the
line is skipped when it has no spans. -/
def headingLine1b (median : ℚ) (pn : Nat) (l : List Span1b) : Option Hd1b :=
  match l with
  | [] => none
  | sp :: _ =>
    let t := pyStrip (joinSepStr " " (l.map (fun s => s.text)))
    if acceptHeading1b median t sp.size then some ⟨t, pn, sp.y⟩ else none

/-- Pass 2 on one page. -/
def headingsPage1b (median : ℚ) (pn : Nat) (pg : Page1b) : List Hd1b :=
  ((pg.blocks.map blockLines1b).flatten).filterMap (headingLine1b median pn)

/-- Pass 2 over the scanned pages, carrying the 0-based page number. -/
def headingsPages1b (median : ℚ) (pn : Nat) : List Page1b → List Hd1b
  | [] => []
  | pg :: rest => headingsPage1b median pn pg ++ headingsPages1b median (pn + 1) rest

/-- Stable ascending insertion by the `(page, y)` key, matching
Python's stable `sorted(headings, key=(page, y))`. -/
def insHd (acc : List Hd1b) (x : Hd1b) : List Hd1b :=
  match acc with
  | [] => [x]
  | y :: ys =>
    if x.page < y.page ∨ (x.page = y.page ∧ x.y < y.y) then x :: y :: ys
    else y :: insHd ys x

/-- Python `sorted(headings, key=lambda x: (x["page"], x["y"]))`. -/
def sortHds (l : List Hd1b) : List Hd1b := l.foldl insHd []

/-- The case-insensitive text dedup of round 1b (first occurrence wins). -/
def dedupHds (seen : List String) : List Hd1b → List Hd1b
  | [] => []
  | h :: t =>
    if pyLower h.text ∈ seen then dedupHds seen t
    else h :: dedupHds (pyLower h.text :: seen) t

/-- The `sorted_headings` list of round 1b: pass-2 headings sorted by
`(page, y)` and deduplicated case-insensitively. -/
def acceptedHeads (doc : Doc1b) : List Hd1b :=
  dedupHds [] (sortHds (headingsPages1b (pyMedian (fontSizes1b doc)) 0 (scannedPages doc)))

/-- The derived `blocks`-mode tuple text of a dict block: a text
block's lines (concatenated span texts) joined by newlines; an image
block contributes no text. -/
def blockText1b (b : Block1b) : String :=
  match b.lines with
  | none => ""
  | some ls => joinSepStr "\n" (ls.map (fun l => joinSepStr "" (l.map (fun sp => sp.text))))

/-- A section record of round 1b. -/
structure Section1b where
  doc_name : String
  page_number : Nat
  section_title : String
  full_text : String
  relevance_score : Option ℚ
deriving DecidableEq

/-- The synthetic section title of the fallback path. -/
def syntheticTitle (pn i : Nat) : String :=
  "Page " ++ toString (pn + 1) ++ ", Section " ++ toString (i + 1)

/-- The fallback slicing of one page's raw block list, carrying the
0-based block index `i` of `enumerate`: every block whose stripped,
newline-collapsed text exceeds 150 characters becomes a section. -/
def fallbackBlocks (name : String) (pn i : Nat) : List Block1b → List Section1b
  | [] => []
  | b :: rest =>
    let t := pyReplaceChar (pyStrip (blockText1b b)) '\n' ' '
    (if 150 < t.length then [⟨name, pn + 1, syntheticTitle pn i, t, none⟩] else []) ++
      fallbackBlocks name pn (i + 1) rest

/-- The fallback slicing over the scanned pages, carrying the 0-based
page number. -/
def fallbackPages (name : String) (pn : Nat) : List Page1b → List Section1b
  | [] => []
  | pg :: rest => fallbackBlocks name pn 0 pg.blocks ++ fallbackPages name (pn + 1) rest

/-- A clip rectangle of the section loop, reduced to its page and its
vertical extent: every rectangle the loop builds spans the full page
width, so the x dimension carries no information.  `y1 = none` stands
for `float('inf')`. -/
structure Clip where
  page : Nat
  y0 : ℚ
  y1 : Option ℚ
deriving DecidableEq

/-- The clip rectangle the loop body picks for page `p` of a section
running from `(sp, sy)` to `(ep, ey)`: `(0, start_y, W, end_y)` when
the page is both start and end page, `(0, start_y, W, pageHeight)` on
the start page, `(0, 0, W, end_y)` on the end page, and the full page
`(0, 0, W, pageHeight)` in between. -/
def clipFor (H : Nat → ℚ) (sp : Nat) (sy : ℚ) (ep : Nat) (ey : Option ℚ) (p : Nat) :
    Clip :=
  if p = sp ∧ p = ep then ⟨p, sy, ey⟩
  else if p = sp then ⟨p, sy, some (H p)⟩
  else if p = ep then ⟨p, 0, ey⟩
  else ⟨p, 0, some (H p)⟩

/-- The clip rectangles of one section over the loop's page range. -/
def buildClips (P : Nat) (H : Nat → ℚ) (sp : Nat) (sy : ℚ) (ep : Nat) (ey : Option ℚ) :
    List Clip :=
  (List.range' sp (min (ep + 1) P - sp)).map (clipFor H sp sy ep ey)

/-- The clip rectangles of every section: section `i` runs from heading
`i` to heading `i + 1`, the last section to the end of the scanned
range (`end_page = P`, `end_y = inf`). -/
def sectionClips (P : Nat) (H : Nat → ℚ) : List (Nat × ℚ) → List (List Clip)
  | [] => []
  | [h] => [buildClips P H h.1 h.2 P none]
  | h :: h2 :: t => buildClips P H h.1 h.2 h2.1 (some h2.2) :: sectionClips P H (h2 :: t)

/-- The page at a 0-based index (the loop only indexes pages below the
scanned bound, so the default is never reached on the code's paths). -/
def pageAt (doc : Doc1b) (p : Nat) : Page1b := doc.pages.getD p ⟨0, 0, [], fun _ _ => ""⟩

/-- The page heights of a document, as the function the clip builder
consumes. -/
def pageHeightAt (doc : Doc1b) (p : Nat) : ℚ := (pageAt doc p).height

/-- One section of the heading path: concatenate the clipped text of
each page of the section, then keep the section only when the content
strips to something non-empty; `endSpec = none` marks the last section. -/
def sectionOf (name : String) (doc : Doc1b) (P : Nat) (h : Hd1b)
    (endSpec : Option (Nat × ℚ)) : Option Section1b :=
  let ep := match endSpec with | some e => e.1 | none => P
  let ey : Option ℚ := match endSpec with | some e => some e.2 | none => none
  let clips := buildClips P (pageHeightAt doc) h.page h.y ep ey
  let content := clips.foldl (fun acc c => acc ++ (pageAt doc c.page).clip c.y0 c.y1) ""
  if pyStrip content ≠ "" then
    some ⟨name, h.page + 1, h.text, pyReplaceChar (pyStrip content) '\n' ' ', none⟩
  else none

/-- The heading path over the sorted, deduplicated heading list. -/
def sectionsFromHeads (name : String) (doc : Doc1b) (P : Nat) : List Hd1b → List Section1b
  | [] => []
  | [h] => (sectionOf name doc P h none).toList
  | h :: h2 :: t =>
    (sectionOf name doc P h (some (h2.page, h2.y))).toList ++
      sectionsFromHeads name doc P (h2 :: t)

/-- Round 1b `extract_text_from_pdf` after a successful open: early
empty result for a zero-page document, early empty result when no
non-blank span exists, the fallback slicing when no headings were
accepted, and otherwise the heading path. -/
def extractSections (name : String) (doc : Doc1b) : List Section1b :=
  if doc.pages.length = 0 then []
  else if fontSizes1b doc = [] then []
  else if acceptedHeads doc = [] then fallbackPages name 0 (scannedPages doc)
  else sectionsFromHeads name doc (min doc.pages.length MAX_PAGES_TO_PROCESS)
    (acceptedHeads doc)

/-- Round 1b `extract_text_from_pdf` as called by the batch loop: the
`fitz.open` failure is NOT caught anywhere in this function, so it
propagates. -/
def extract_text_from_pdf (name : String) (d : Except String Doc1b) :
    Except String (List Section1b) :=
  match d with
  | .error e => .error e
  | .ok doc => .ok (extractSections name doc)

/-- The section-collection loop of `run_analysis`
(`all_sections.extend(extract_text_from_pdf(pdf_file))` per file, with
no per-document exception handler): the first failing document aborts
the whole loop. -/
def collectSections (openDoc : String → Except String Doc1b) :
    List String → List Section1b → Except String (List Section1b)
  | [], acc => .ok acc
  | f :: rest, acc =>
    match extract_text_from_pdf f (openDoc f) with
    | .error e => .error e
    | .ok s => collectSections openDoc rest (acc ++ s)

/-- Stable descending insertion by a rational key: the incoming element
goes after every already-placed element whose key is at least as large,
exactly the ordering of Python's stable `sorted(key=..., reverse=True)`. -/
def insDesc {α : Type} (k : α → ℚ) (acc : List α) (x : α) : List α :=
  match acc with
  | [] => [x]
  | y :: ys => if k y < k x then x :: y :: ys else y :: insDesc k ys x

/-- Python `sorted(l, key=k, reverse=True)` (stable, descending). -/
def sortDesc {α : Type} (k : α → ℚ) (l : List α) : List α := l.foldl (insDesc k) []

/-- The ranker's sort key `x.get('relevance_score', -1)`. -/
def sKey (s : Section1b) : ℚ := s.relevance_score.getD (-1)

/-- `ranked_sections` of `run_analysis`. -/
def rankedSections (l : List Section1b) : List Section1b := sortDesc sKey l

/-- One entry of the `extracted_section` output list. -/
structure ExtractedEntry where
  document : String
  page_number : Nat
  section_title : String
  importance_rank : Nat
deriving DecidableEq

/-- One entry of the `sub-section_analysis` output list (hyphen
replaced by an underscore in the Lean field name). -/
structure RefinedEntry where
  document : String
  refined_text : String
  page_number : Nat
deriving DecidableEq

/-- The `extracted_section` list: the top 10 ranked sections with
`importance_rank = i + 1` over `enumerate(ranked_sections[:10])`. -/
def topExtracted (l : List Section1b) : List ExtractedEntry :=
  ((rankedSections l).take 10).enum.map (fun p =>
    ⟨p.2.doc_name, p.2.page_number, p.2.section_title, p.1 + 1⟩)

/-- The `sub-section_analysis` list: `full_text[:500] + "..."` per top
section. -/
def topRefined (l : List Section1b) : List RefinedEntry :=
  ((rankedSections l).take 10).map (fun s =>
    ⟨s.doc_name, pyTake 500 s.full_text ++ "...", s.page_number⟩)

/-- The persona input of round 1b. -/
structure PersonaData where
  persona : String
  job_to_be_done : String
deriving DecidableEq

/-- The final output record of round 1b (metadata fields inlined;
`processing_timestamp` is supplied by the clock oracle). -/
structure FinalOutput where
  input_documents : List String
  persona : String
  job_to_be_done : String
  processing_timestamp : String
  extracted_section : List ExtractedEntry
  subsection_analysis : List RefinedEntry
deriving DecidableEq

/-- Round 1b `run_analysis`, with its fallible collaborators as
parameters: reading and parsing `persona.json` (NOT wrapped in any
try), listing the input directory (wrapped in a try that degrades to no
PDF files), opening each PDF (uncaught, aborts the loop), the embedding
scorer, and the clock.  Scores are attached only when at least one
section was extracted; the output file is written at the end. -/
def run_analysis (personaRaw : Except String PersonaData)
    (listing : Except String (List String))
    (openDoc : String → Except String Doc1b)
    (score : String → ℚ) (ts : String) : Except String FinalOutput :=
  match personaRaw with
  | .error e => .error e
  | .ok pd =>
    let pdf_files := match listing with
      | .ok fs => fs.filter (fun f => pyEndsWith (pyLower f) ".pdf")
      | .error _ => []
    match collectSections openDoc pdf_files [] with
    | .error e => .error e
    | .ok all0 =>
      let scored := if all0.isEmpty then all0
        else all0.map (fun s => { s with relevance_score := some (score s.full_text) })
      .ok ⟨pdf_files, pd.persona, pd.job_to_be_done, ts,
        topExtracted scored, topRefined scored⟩

/-- A block text longer than 150 characters for the demonstration
documents. -/
def longBlockText : String :=
  "The quarterly report describes revenue growth and risk factors across all operating regions in detail. The quarterly report describes revenue growth and risk factors across all operating regions in detail."

/-- A one-page document with a single long paragraph block and no
heading-sized line: round 1b extracts one fallback section from it. -/
def demoFallbackDoc : Doc1b :=
  ⟨[⟨612, 792, [⟨some [[⟨longBlockText, 12, 100⟩]]⟩], fun _ _ => ""⟩]⟩

/-- C2 (amended): the outline use case catches every open/parse failure
at the document boundary and degrades to the error result; but the
ranking use case has no per-document handler — an exception raised
while opening a document propagates out of `extract_text_from_pdf` and
aborts the whole collection loop. -/
theorem document_boundary_isolation :
    (∀ e, extract_outline (Except.error e) = ⟨"Error Processing Document", []⟩) ∧
    (∀ (openDoc : String → Except String Doc1b) (name : String) (rest : List String)
      (acc : List Section1b) (e : String), openDoc name = .error e →
      collectSections openDoc (name :: rest) acc = .error e) := by
  refine ⟨fun e => rfl, ?_⟩
  intro openDoc name rest acc e h
  simp only [collectSections, extract_text_from_pdf, h]

set_option maxRecDepth 4000 in
/-- C2 counterexample: a batch whose first document cannot be opened
aborts the whole ranking run — the second document's sections (which
exist) are never produced, contradicting the claim that the run
continues with an empty contribution for the failing document. -/
theorem batch_abort_counterexample :
    collectSections
      (fun n => if n = "bad.pdf" then .error "cannot open bad.pdf"
        else .ok demoFallbackDoc)
      ["bad.pdf", "good.pdf"] [] = .error "cannot open bad.pdf" ∧
    extractSections "good.pdf" demoFallbackDoc ≠ [] := by
  refine ⟨rfl, ?_⟩
  with_unfolding_all decide

/-- C2 witness: a failing first open aborts the collection loop. -/
theorem document_boundary_isolation_witness :
    collectSections (fun _ => Except.error "io failure") ["x.pdf"] [] =
      Except.error "io failure" :=
  document_boundary_isolation.2 (fun _ => Except.error "io failure") "x.pdf" [] []
    "io failure" rfl

/-- C9 (amended): a missing or malformed `persona.json` aborts the run
before any output is produced (its load is not wrapped in any try); only
the directory-listing failure and the zero-PDF case are degraded, and in
those cases the run still produces the output record with empty section
lists. -/
theorem persona_and_empty_input_behavior :
    (∀ (e : String) (listing : Except String (List String))
      (openDoc : String → Except String Doc1b) (score : String → ℚ) (ts : String),
      run_analysis (Except.error e) listing openDoc score ts = Except.error e) ∧
    (∀ (pd : PersonaData) (e : String) (openDoc : String → Except String Doc1b)
      (score : String → ℚ) (ts : String),
      run_analysis (Except.ok pd) (Except.error e) openDoc score ts =
        Except.ok ⟨[], pd.persona, pd.job_to_be_done, ts, [], []⟩) ∧
    (∀ (pd : PersonaData) (fs : List String) (openDoc : String → Except String Doc1b)
      (score : String → ℚ) (ts : String),
      fs.filter (fun f => pyEndsWith (pyLower f) ".pdf") = [] →
      run_analysis (Except.ok pd) (Except.ok fs) openDoc score ts =
        Except.ok ⟨[], pd.persona, pd.job_to_be_done, ts, [], []⟩) := by
  refine ⟨fun e _ _ _ _ => rfl, fun pd e openDoc score ts => rfl, ?_⟩
  intro pd fs openDoc score ts h
  simp only [run_analysis, h]
  rfl

/-- C9 counterexample: with `persona.json` missing, the run aborts with
the uncaught exception and produces no output record at all, despite
PDFs being present. -/
theorem persona_crash_counterexample :
    run_analysis (Except.error "FileNotFoundError: persona.json") (Except.ok ["a.pdf"])
      (fun _ => Except.ok demoFallbackDoc) (fun _ => 0) "2026-10-12 00:00:00" =
      Except.error "FileNotFoundError: persona.json" := rfl

/-- C9 witness: with a good persona and no PDF among the listed files,
the run still produces the output record with empty sections. -/
theorem persona_and_empty_input_behavior_witness :
    run_analysis (Except.ok ⟨"Investment Analyst", "Summarize quarterly risk factors"⟩)
      (Except.ok ["notes.txt"]) (fun _ => Except.error "never opened") (fun _ => 0)
      "2026-10-12 00:00:00" =
      Except.ok ⟨[], "Investment Analyst", "Summarize quarterly risk factors",
        "2026-10-12 00:00:00", [], []⟩ :=
  persona_and_empty_input_behavior.2.2
    ⟨"Investment Analyst", "Summarize quarterly risk factors"⟩ ["notes.txt"]
    (fun _ => Except.error "never opened") (fun _ => 0) "2026-10-12 00:00:00" (by decide)

/-- Whether a clip rectangle covers the point `(p, y)`, reading the
vertical extent as the half-open interval `[y0, y1)` (the source ranges
of the tiling law; an unbounded rectangle covers everything below
`y0`). -/
def clipCoversB (c : Clip) (p : Nat) (y : ℚ) : Bool :=
  decide (c.page = p) && decide (c.y0 ≤ y) &&
    (match c.y1 with | none => true | some b => decide (y < b))

/-- How many of the sections' clip rectangles cover the point `(p, y)`. -/
def coverCount (css : List (List Clip)) (p : Nat) (y : ℚ) : Nat :=
  (css.map (fun cs => cs.countP (fun c => clipCoversB c p y))).sum

/-- Reading-order comparison between a heading position and a point:
the heading starts at or before the point. -/
def posLe (h : Nat × ℚ) (p : Nat) (y : ℚ) : Prop :=
  h.1 < p ∨ (h.1 = p ∧ h.2 ≤ y)

instance (h : Nat × ℚ) (p : Nat) (y : ℚ) : Decidable (posLe h p y) := by
  unfold posLe
  infer_instance

/-- Strict reading-order comparison between heading positions. -/
def hdLt (a b : Nat × ℚ) : Prop := a.1 < b.1 ∨ (a.1 = b.1 ∧ a.2 < b.2)

instance (a b : Nat × ℚ) : Decidable (hdLt a b) := by
  unfold hdLt
  infer_instance

/-- A heading before another heading starts at or before every point
the later heading starts at or before. -/
theorem posLe_of_hdLt (a b : Nat × ℚ) (p : Nat) (y : ℚ)
    (hab : hdLt a b) (hb : posLe b p y) : posLe a p y := by
  unfold hdLt at hab
  unfold posLe at hb ⊢
  rcases hab with hab | ⟨he, hy⟩
  · rcases hb with hb | ⟨hb, _⟩
    · exact Or.inl (lt_trans hab hb)
    · exact Or.inl (hb ▸ hab)
  · rcases hb with hb | ⟨hb, hy2⟩
    · exact Or.inl (he ▸ hb)
    · exact Or.inr ⟨he.trans hb, le_trans (le_of_lt hy) hy2⟩

/-- Counting covered clips over a page-indexed map of a range: at most
the one clip sitting on page `p` can cover `(p, y)`. -/
theorem countP_range'_map (y : ℚ) (f : Nat → Clip) (hpage : ∀ q, (f q).page = q) :
    ∀ (n a p : Nat),
    ((List.range' a n).map f).countP (fun c => clipCoversB c p y) =
      if a ≤ p ∧ p < a + n ∧ clipCoversB (f p) p y = true then 1 else 0 := by
  intro n
  induction n with
  | zero =>
    intro a p
    rw [if_neg (by omega)]
    rfl
  | succ n ih =>
    intro a p
    rw [List.range'_succ, List.map_cons, List.countP_cons, ih (a + 1) p]
    by_cases hpa : p = a
    · subst hpa
      rw [if_neg (fun h => absurd h.1 (by omega))]
      by_cases hcov : clipCoversB (f p) p y = true
      · rw [if_pos hcov, if_pos ⟨le_refl p, by omega, hcov⟩]
      · rw [if_neg hcov, if_neg (fun h => hcov h.2.2)]
    · have hf : clipCoversB (f a) p y = false := by
        unfold clipCoversB
        rw [hpage a, decide_eq_false (by omega : ¬ a = p)]
        simp
      rw [hf, if_neg Bool.false_ne_true, Nat.add_zero]
      by_cases hcov : clipCoversB (f p) p y = true
      · by_cases h1 : a + 1 ≤ p ∧ p < a + 1 + n
        · rw [if_pos ⟨h1.1, h1.2, hcov⟩, if_pos ⟨by omega, by omega, hcov⟩]
        · rw [if_neg (fun h => h1 ⟨h.1, h.2.1⟩), if_neg (fun h => h1 ⟨by omega, by omega⟩)]
      · rw [if_neg (fun h => hcov h.2.2), if_neg (fun h => hcov h.2.2)]

/-- Every clip the loop builds sits on the page it was built for. -/
theorem clipFor_page (H : Nat → ℚ) (sp : Nat) (sy : ℚ) (ep : Nat) (ey : Option ℚ)
    (q : Nat) : (clipFor H sp sy ep ey q).page = q := by
  unfold clipFor
  split_ifs <;> rfl

/-- A heading that starts at or before `(p, y)` sits on a page at or
before `p`. -/
theorem posLe_page_le (h : Nat × ℚ) (p : Nat) (y : ℚ) (hple : posLe h p y) :
    h.1 ≤ p := by
  unfold posLe at hple
  rcases hple with hlt | ⟨heq, _⟩
  · exact le_of_lt hlt
  · exact le_of_eq heq

/-- A heading that does not start at or before `(p, y)` sits on a page
at or after `p`. -/
theorem not_posLe_page (h : Nat × ℚ) (p : Nat) (y : ℚ) (hn : ¬ posLe h p y) :
    p ≤ h.1 := by
  by_contra hc
  exact hn (Or.inl (by omega))

/-- Coverage of an in-range point by the last section's clip for its
own page: only the start-page rectangle constrains it. -/
theorem cov_clipFor_last (H : Nat → ℚ) (sp : Nat) (sy : ℚ) (P p : Nat) (y : ℚ)
    (hnp : p ≠ P) (hy0 : 0 ≤ y) (hyH : y < H p) :
    clipCoversB (clipFor H sp sy P none p) p y = true ↔ (p = sp → sy ≤ y) := by
  by_cases hp1 : p = sp
  · subst hp1
    unfold clipFor clipCoversB
    rw [if_neg (fun hq => hnp hq.2), if_pos rfl]
    simp [hyH]
  · unfold clipFor clipCoversB
    rw [if_neg (fun hq => hp1 hq.1), if_neg hp1, if_neg hnp]
    simp [hy0, hyH, hp1]

/-- Coverage of an in-range point by an inner section's clip for its
own page: the start-page rectangle bounds from above `y0 = sy`, the
end-page rectangle bounds from below `y1 = b`. -/
theorem cov_clipFor_pair (H : Nat → ℚ) (sp : Nat) (sy : ℚ) (ep : Nat) (b : ℚ)
    (p : Nat) (y : ℚ) (hy0 : 0 ≤ y) (hyH : y < H p) :
    clipCoversB (clipFor H sp sy ep (some b) p) p y = true ↔
      ((p = sp → sy ≤ y) ∧ (p = ep → y < b)) := by
  by_cases hp1 : p = sp
  · by_cases hp2 : p = ep
    · subst hp1
      subst hp2
      unfold clipFor clipCoversB
      rw [if_pos ⟨rfl, rfl⟩]
      simp
    · subst hp1
      unfold clipFor clipCoversB
      rw [if_neg (fun hq => hp2 hq.2), if_pos rfl]
      simp [hyH, hp2]
  · by_cases hp2 : p = ep
    · subst hp2
      unfold clipFor clipCoversB
      rw [if_neg (fun hq => hp1 hq.1), if_neg hp1, if_pos rfl]
      simp [hy0, hp1]
  -- distinct middle page
    · unfold clipFor clipCoversB
      rw [if_neg (fun hq => hp1 hq.1), if_neg hp1, if_neg hp2]
      simp [hy0, hyH, hp1, hp2]

/-- The last section's clips cover an in-range point exactly when the
point is at or after the heading. -/
theorem count_lastSection (P : Nat) (H : Nat → ℚ) (h : Nat × ℚ) (p : Nat) (y : ℚ)
    (hhp : h.1 < P) (hp : p < P) (hy0 : 0 ≤ y) (hyH : y < H p) :
    (buildClips P H h.1 h.2 P none).countP (fun c => clipCoversB c p y) =
      if posLe h p y then 1 else 0 := by
  unfold buildClips
  rw [countP_range'_map y _ (clipFor_page H h.1 h.2 P none) (min (P + 1) P - h.1) h.1 p]
  have hmin : min (P + 1) P - h.1 = P - h.1 := by omega
  rw [hmin]
  by_cases hple : posLe h p y
  · have hcov : clipCoversB (clipFor H h.1 h.2 P none p) p y = true := by
      rw [cov_clipFor_last H h.1 h.2 P p y (by omega) hy0 hyH]
      intro hp1
      unfold posLe at hple
      rcases hple with hlt | ⟨heq, hy⟩
      · omega
      · exact hy
    rw [if_pos hple, if_pos ⟨posLe_page_le h p y hple, by omega, hcov⟩]
  · rw [if_neg hple, if_neg ?_]
    rintro ⟨hle, _, hcov⟩
    apply hple
    unfold posLe
    rcases eq_or_lt_of_le hle with heq | hlt
    · exact Or.inr ⟨heq,
        (cov_clipFor_last H h.1 h.2 P p y (by omega) hy0 hyH).mp hcov heq.symm⟩
    · exact Or.inl hlt

/-- An inner section's clips cover an in-range point exactly when the
point is at or after its heading and strictly before the next one. -/
theorem count_pairSection (P : Nat) (H : Nat → ℚ) (h h2 : Nat × ℚ) (p : Nat) (y : ℚ)
    (hlt12 : hdLt h h2) (hh2p : h2.1 < P) (hp : p < P) (hy0 : 0 ≤ y) (hyH : y < H p) :
    (buildClips P H h.1 h.2 h2.1 (some h2.2)).countP (fun c => clipCoversB c p y) =
      if posLe h p y ∧ ¬ posLe h2 p y then 1 else 0 := by
  have h12 : h.1 ≤ h2.1 := by
    unfold hdLt at hlt12
    rcases hlt12 with hx | ⟨hx, _⟩
    · exact le_of_lt hx
    · exact le_of_eq hx
  unfold buildClips
  rw [countP_range'_map y _ (clipFor_page H h.1 h.2 h2.1 (some h2.2))
    (min (h2.1 + 1) P - h.1) h.1 p]
  have hmin : min (h2.1 + 1) P - h.1 = h2.1 + 1 - h.1 := by omega
  rw [hmin]
  have hiff := cov_clipFor_pair H h.1 h.2 h2.1 h2.2 p y hy0 hyH
  by_cases hcond : posLe h p y ∧ ¬ posLe h2 p y
  · have hple := posLe_page_le h p y hcond.1
    have hpge := not_posLe_page h2 p y hcond.2
    have hcov : clipCoversB (clipFor H h.1 h.2 h2.1 (some h2.2) p) p y = true := by
      rw [hiff]
      constructor
      · intro hp1
        rcases hcond.1 with hx | ⟨hx, hy⟩
        · omega
        · exact hy
      · intro hp2
        by_contra hc
        exact hcond.2 (Or.inr ⟨hp2.symm, not_lt.mp hc⟩)
    rw [if_pos hcond, if_pos ⟨hple, by omega, hcov⟩]
  · rw [if_neg hcond, if_neg ?_]
    rintro ⟨hle, hlt2, hcov⟩
    rw [hiff] at hcov
    apply hcond
    constructor
    · rcases eq_or_lt_of_le hle with heq | hlt
      · exact Or.inr ⟨heq, hcov.1 heq.symm⟩
      · exact Or.inl hlt
    · rintro (hx | ⟨hx, hy⟩)
      · omega
      · exact absurd hy (not_le.mpr (hcov.2 hx.symm))

/-- C3 (amended): for headings strictly increasing in reading order
`(page, y)`, all on scanned pages with in-page y positions, the
sections' clip rectangles tile the scanned range exactly from the first
heading onward: an in-range point at or after the first heading is
covered by exactly one rectangle, and a point before the first heading
by none (so the claim's tiling of the whole scanned page range fails
exactly on the region before the first heading). -/
theorem section_clips_tiling (P : Nat) (H : Nat → ℚ) (h0 : Nat × ℚ)
    (rest : List (Nat × ℚ)) (p : Nat) (y : ℚ)
    (hchain : List.Chain' hdLt (h0 :: rest))
    (hbound : ∀ h ∈ h0 :: rest, h.1 < P ∧ 0 ≤ h.2 ∧ h.2 < H h.1)
    (hp : p < P) (hy0 : 0 ≤ y) (hyH : y < H p) :
    coverCount (sectionClips P H (h0 :: rest)) p y =
      if posLe h0 p y then 1 else 0 := by
  induction rest generalizing h0 with
  | nil =>
    have hb0 := hbound h0 (List.mem_cons_self _ _)
    unfold sectionClips coverCount
    simp only [List.map_cons, List.map_nil, List.sum_cons, List.sum_nil, Nat.add_zero]
    exact count_lastSection P H h0 p y hb0.1 hp hy0 hyH
  | cons h2 t ih =>
    have hb0 := hbound h0 (List.mem_cons_self _ _)
    have hb2 := hbound h2 (List.mem_cons_of_mem _ (List.mem_cons_self _ _))
    obtain ⟨h02, hchain2⟩ := List.chain'_cons.mp hchain
    have hrest : coverCount (sectionClips P H (h2 :: t)) p y =
        if posLe h2 p y then 1 else 0 :=
      ih h2 hchain2 (fun h hh => hbound h (List.mem_cons_of_mem _ hh))
    have hpair := count_pairSection P H h0 h2 p y h02 hb2.1 hp hy0 hyH
    have hsplit : coverCount (sectionClips P H (h0 :: h2 :: t)) p y =
        (buildClips P H h0.1 h0.2 h2.1 (some h2.2)).countP
          (fun c => clipCoversB c p y) +
          coverCount (sectionClips P H (h2 :: t)) p y := by
      have hsc : sectionClips P H (h0 :: h2 :: t) =
          buildClips P H h0.1 h0.2 h2.1 (some h2.2) :: sectionClips P H (h2 :: t) := rfl
      rw [hsc]
      unfold coverCount
      simp only [List.map_cons, List.sum_cons]
    rw [hsplit, hpair, hrest]
    by_cases hp2 : posLe h2 p y
    · rw [if_pos hp2, if_neg (fun hc => hc.2 hp2), if_pos (posLe_of_hdLt h0 h2 p y h02 hp2)]
    · rw [if_neg hp2]
      by_cases hp0 : posLe h0 p y
      · rw [if_pos ⟨hp0, hp2⟩, if_pos hp0]
      · rw [if_neg (fun hc => hp0 hc.1), if_neg hp0]

/-- C3 counterexample: a document scanned as one page of height 792
with a single heading at `(0, 100)`: the in-range point `(0, 50)` above
the heading is covered by no section rectangle, so the rectangles do
not tile the whole scanned page range. -/
theorem section_clips_tiling_counterexample :
    coverCount (sectionClips 1 (fun _ => 792) [(0, 100)]) 0 50 = 0 ∧
    (0 : ℚ) ≤ 50 ∧ (50 : ℚ) < 792 ∧ 0 < 1 := by
  refine ⟨by with_unfolding_all decide, by norm_num, by norm_num, by norm_num⟩

/-- C3 witness: the point `(0, 150)` below that heading is covered by
exactly one rectangle. -/
theorem section_clips_tiling_witness :
    coverCount (sectionClips 1 (fun _ => 792) [(0, 100)]) 0 150 = 1 := by
  have hple : posLe (0, 100) 0 150 := Or.inr ⟨rfl, by norm_num⟩
  have h := section_clips_tiling 1 (fun _ => 792) (0, 100) [] 0 150
    (by simp) ?_ (by norm_num) (by norm_num) (by norm_num)
  · rw [h, if_pos hple]
  · intro h hh
    simp only [List.mem_singleton] at hh
    subst hh
    exact ⟨by norm_num, by norm_num, by norm_num⟩

/-- Membership through descending insertion. -/
theorem mem_insDesc {α : Type} (k : α → ℚ) (acc : List α) (x z : α) :
    z ∈ insDesc k acc x ↔ z ∈ acc ∨ z = x := by
  induction acc with
  | nil => simp [insDesc]
  | cons y ys ih =>
    simp only [insDesc]
    split_ifs with h
    · simp only [List.mem_cons]
      tauto
    · simp only [List.mem_cons, ih]
      tauto

/-- Descending insertion is a permutation of pushing in front. -/
theorem insDesc_perm {α : Type} (k : α → ℚ) (acc : List α) (x : α) :
    (insDesc k acc x).Perm (x :: acc) := by
  induction acc with
  | nil => simp [insDesc]
  | cons y ys ih =>
    simp only [insDesc]
    split_ifs with h
    · exact List.Perm.refl _
    · exact (ih.cons y).trans (List.Perm.swap x y ys)

/-- The descending insertion fold permutes its inputs. -/
theorem foldl_insDesc_perm {α : Type} (k : α → ℚ) :
    ∀ (l acc : List α), (l.foldl (insDesc k) acc).Perm (acc ++ l) := by
  intro l
  induction l with
  | nil => intro acc; simp
  | cons a l ih =>
    intro acc
    rw [List.foldl_cons]
    have h1 := ih (insDesc k acc a)
    have h2 : (insDesc k acc a ++ l).Perm ((a :: acc) ++ l) :=
      (insDesc_perm k acc a).append_right l
    have h3 : ((a :: acc) ++ l).Perm (acc ++ a :: l) := List.perm_middle.symm
    exact (h1.trans h2).trans h3

/-- Python's descending sort is a permutation of its input. -/
theorem sortDesc_perm {α : Type} (k : α → ℚ) (l : List α) :
    (sortDesc k l).Perm l := foldl_insDesc_perm k l []

/-- Descending insertion keeps the list sorted by non-increasing key. -/
theorem insDesc_pairwise {α : Type} (k : α → ℚ) (acc : List α) (x : α)
    (h : acc.Pairwise (fun a b => k b ≤ k a)) :
    (insDesc k acc x).Pairwise (fun a b => k b ≤ k a) := by
  induction acc with
  | nil => simp [insDesc]
  | cons y ys ih =>
    obtain ⟨hy, hys⟩ := List.pairwise_cons.mp h
    simp only [insDesc]
    split_ifs with hxy
    · refine List.pairwise_cons.mpr ⟨?_, h⟩
      intro z hz
      rcases List.mem_cons.mp hz with rfl | hz
      · exact le_of_lt hxy
      · exact le_trans (hy z hz) (le_of_lt hxy)
    · refine List.pairwise_cons.mpr ⟨?_, ih hys⟩
      intro z hz
      rcases (mem_insDesc k ys x z).mp hz with hz | rfl
      · exact hy z hz
      · exact not_lt.mp hxy

/-- The output of the ranker's sort is non-increasing in the key. -/
theorem sortDesc_sorted {α : Type} (k : α → ℚ) (l : List α) :
    (sortDesc k l).Pairwise (fun a b => k b ≤ k a) := by
  suffices h : ∀ acc : List α, acc.Pairwise (fun a b => k b ≤ k a) →
      (l.foldl (insDesc k) acc).Pairwise (fun a b => k b ≤ k a) from h [] (by simp)
  induction l with
  | nil => exact fun acc h => h
  | cons a l ih =>
    intro acc hacc
    exact ih _ (insDesc_pairwise k acc a hacc)

/-- The strict (key descending, original index ascending) order that a
stable descending sort of index-annotated elements produces. -/
def rankLex {α : Type} (k : α → ℚ) (a b : Nat × α) : Prop :=
  k b.2 < k a.2 ∨ (k a.2 = k b.2 ∧ a.1 < b.1)

/-- Inserting an element whose index exceeds every index of the
accumulator preserves strict (key desc, index asc) sortedness. -/
theorem insDesc_rankLex {α : Type} (k : α → ℚ) (acc : List (Nat × α)) (x : Nat × α)
    (hidx : ∀ a ∈ acc, a.1 < x.1) (h : acc.Pairwise (rankLex k)) :
    (insDesc (fun p => k p.2) acc x).Pairwise (rankLex k) := by
  induction acc with
  | nil => simp [insDesc]
  | cons y ys ih =>
    obtain ⟨hy, hys⟩ := List.pairwise_cons.mp h
    simp only [insDesc]
    split_ifs with hxy
    · refine List.pairwise_cons.mpr ⟨?_, h⟩
      intro z hz
      rcases List.mem_cons.mp hz with rfl | hz
      · exact Or.inl hxy
      · refine Or.inl ?_
        rcases hy z hz with hlt | ⟨heq, _⟩
        · exact lt_trans hlt hxy
        · exact heq ▸ hxy
    · refine List.pairwise_cons.mpr ⟨?_, ih (fun a ha => hidx a (List.mem_cons_of_mem _ ha)) hys⟩
      intro z hz
      rcases (mem_insDesc (fun p => k p.2) ys x z).mp hz with hz | rfl
      · exact hy z hz
      · rcases eq_or_lt_of_le (not_lt.mp hxy) with heq | hlt
        · exact Or.inr ⟨heq.symm, hidx y (List.mem_cons_self _ _)⟩
        · exact Or.inl hlt

/-- The fold of descending insertions over index-increasing input is
strictly (key desc, index asc) sorted. -/
theorem foldl_insDesc_rankLex {α : Type} (k : α → ℚ) :
    ∀ (ps acc : List (Nat × α)),
    acc.Pairwise (rankLex k) →
    (∀ a ∈ acc, ∀ b ∈ ps, a.1 < b.1) →
    ps.Pairwise (fun a b => a.1 < b.1) →
    (ps.foldl (insDesc (fun p => k p.2)) acc).Pairwise (rankLex k) := by
  intro ps
  induction ps with
  | nil => exact fun acc hacc _ _ => hacc
  | cons b ps ih =>
    intro acc hacc hcross hps
    obtain ⟨hb, hps2⟩ := List.pairwise_cons.mp hps
    refine ih (insDesc (fun p => k p.2) acc b) ?_ ?_ hps2
    · exact insDesc_rankLex k acc b
        (fun a ha => hcross a ha b (List.mem_cons_self _ _)) hacc
    · intro a ha c hc
      rcases (mem_insDesc (fun p => k p.2) acc b a).mp ha with ha | rfl
      · exact hcross a ha c (List.mem_cons_of_mem _ hc)
      · exact hb c hc

/-- The enum of a list has strictly increasing indices. -/
theorem enum_fst_pairwise {α : Type} (l : List α) :
    l.enum.Pairwise (fun a b => a.1 < b.1) := by
  have h := List.pairwise_lt_range l.length
  rw [← List.enum_map_fst l] at h
  exact (List.pairwise_map.mp h)

/-- Stability of the descending sort: on index-annotated input the
output is strictly sorted by (key descending, index ascending), which
pins the order of equal-key elements to their original order. -/
theorem sortDesc_enum_rankLex {α : Type} (k : α → ℚ) (l : List α) :
    (sortDesc (fun p => k p.2) l.enum).Pairwise (rankLex k) :=
  foldl_insDesc_rankLex k l.enum [] (by simp) (by simp) (enum_fst_pairwise l)

/-- Descending insertion commutes with dropping the index annotation. -/
theorem insDesc_map_snd {α : Type} (k : α → ℚ) (acc : List (Nat × α)) (x : Nat × α) :
    (insDesc (fun p => k p.2) acc x).map Prod.snd = insDesc k (acc.map Prod.snd) x.2 := by
  induction acc with
  | nil => simp [insDesc]
  | cons y ys ih =>
    simp only [insDesc, List.map_cons]
    split_ifs with h
    · simp
    · simp [ih]

/-- The whole sort commutes with dropping the index annotation. -/
theorem foldl_insDesc_map_snd {α : Type} (k : α → ℚ) :
    ∀ (ps acc : List (Nat × α)),
    (ps.foldl (insDesc (fun p => k p.2)) acc).map Prod.snd =
      (ps.map Prod.snd).foldl (insDesc k) (acc.map Prod.snd) := by
  intro ps
  induction ps with
  | nil => intro acc; rfl
  | cons b ps ih =>
    intro acc
    simp only [List.foldl_cons, List.map_cons, ih, insDesc_map_snd]

/-- Sorting the enum and dropping the indices is sorting the list. -/
theorem sortDesc_enum_map_snd {α : Type} (k : α → ℚ) (l : List α) :
    (sortDesc (fun p => k p.2) l.enum).map Prod.snd = sortDesc k l := by
  unfold sortDesc
  rw [foldl_insDesc_map_snd k l.enum [], List.enum_map_snd]
  rfl

/-- The 1-based positions of an enumerated list are `1, 2, …, length`. -/
theorem enumFrom_map_fst_succ {α : Type} :
    ∀ (xs : List α) (n : Nat),
    (List.enumFrom n xs).map (fun p => p.1 + 1) = List.range' (n + 1) xs.length := by
  intro xs
  induction xs with
  | nil => intro n; rfl
  | cons x xs ih =>
    intro n
    show (n + 1) :: (List.enumFrom (n + 1) xs).map (fun p => p.1 + 1) =
      List.range' (n + 1) (xs.length + 1)
    rw [List.range'_succ, ih (n + 1)]

/-- Mapping a function of the element over an enum forgets the index. -/
theorem enum_map_snd_comp {α β : Type} (g : α → β) (xs : List α) :
    xs.enum.map (fun p => g p.2) = xs.map g := by
  have h := congrArg (List.map g) (List.enum_map_snd xs)
  rw [List.map_map] at h
  exact h

/-- C6: the Relevance Ranker sorts all sections by score descending
(`x.get('relevance_score', -1)` as key), stably — on index-annotated
input the output is strictly sorted by (score descending, original
position ascending), and forgetting the annotation recovers the sort —
emits the top 10 (fewer if fewer) with `importance_rank` equal to the
1-based position in that order, and each refined text is the literal
500-character prefix of the section's full text plus the ellipsis. -/
theorem ranker_contract (l : List Section1b) :
    (rankedSections l).Perm l ∧
    (rankedSections l).Pairwise (fun a b => sKey b ≤ sKey a) ∧
    (sortDesc (fun p => sKey p.2) l.enum).Pairwise (rankLex sKey) ∧
    (sortDesc (fun p => sKey p.2) l.enum).map Prod.snd = rankedSections l ∧
    (topExtracted l).map (fun e => e.importance_rank) = List.range' 1 (min 10 l.length) ∧
    (topExtracted l).map (fun e => (e.document, e.page_number, e.section_title)) =
      ((rankedSections l).take 10).map
        (fun s => (s.doc_name, s.page_number, s.section_title)) ∧
    (topRefined l).map (fun e => e.refined_text) =
      ((rankedSections l).take 10).map (fun s => pyTake 500 s.full_text ++ "...") := by
  refine ⟨sortDesc_perm sKey l, sortDesc_sorted sKey l, sortDesc_enum_rankLex sKey l,
    sortDesc_enum_map_snd sKey l, ?_, ?_, ?_⟩
  · unfold topExtracted
    rw [List.map_map]
    show (List.enumFrom 0 ((rankedSections l).take 10)).map (fun p => p.1 + 1) =
      List.range' 1 (min 10 l.length)
    rw [enumFrom_map_fst_succ ((rankedSections l).take 10) 0, List.length_take]
    have hlen : (rankedSections l).length = l.length := (sortDesc_perm sKey l).length_eq
    rw [hlen]
  · unfold topExtracted
    rw [List.map_map]
    exact enum_map_snd_comp
      (fun s => (s.doc_name, s.page_number, s.section_title)) ((rankedSections l).take 10)
  · unfold topRefined
    rw [List.map_map]
    rfl

/-- A string strips to empty exactly when it is all whitespace. -/
theorem pyStripL_eq_nil_iff (l : List Char) :
    pyStripL l = [] ↔ ∀ c ∈ l, isPySpace c = true := by
  unfold pyStripL
  rw [List.reverse_eq_nil_iff, List.dropWhile_eq_nil_iff]
  constructor
  · intro h c hc
    have hsplit := List.takeWhile_append_dropWhile (p := isPySpace) (l := l)
    rw [← hsplit] at hc
    rcases List.mem_append.mp hc with hc | hc
    · exact List.mem_takeWhile_imp hc
    · exact h c (List.mem_reverse.mpr hc)
  · intro h c hc
    exact h c ((List.dropWhile_sublist _).mem (List.mem_reverse.mp hc))

/-- String form of the previous lemma. -/
theorem pyStrip_eq_empty_iff (s : String) :
    pyStrip s = "" ↔ ∀ c ∈ s.data, isPySpace c = true := by
  unfold pyStrip
  rw [String.ext_iff]
  exact pyStripL_eq_nil_iff s.data

/-- Joining all-whitespace parts with an all-whitespace separator is
all whitespace. -/
theorem joinSepL_ws (sep : List Char) (hsep : ∀ c ∈ sep, isPySpace c = true) :
    ∀ ls : List (List Char), (∀ l ∈ ls, ∀ c ∈ l, isPySpace c = true) →
    ∀ c ∈ joinSepL sep ls, isPySpace c = true := by
  intro ls
  induction ls with
  | nil => intro _ c hc; cases hc
  | cons x t ih =>
    intro hall c hc
    cases t with
    | nil => exact hall x (List.mem_cons_self _ _) c hc
    | cons y t2 =>
      rw [show joinSepL sep (x :: y :: t2) = x ++ sep ++ joinSepL sep (y :: t2) from rfl]
        at hc
      rcases List.mem_append.mp hc with hc | hc
      · rcases List.mem_append.mp hc with hc | hc
        · exact hall x (List.mem_cons_self _ _) c hc
        · exact hsep c hc
      · exact ih (fun l hl => hall l (List.mem_cons_of_mem _ hl)) c hc

/-- If every span of a page window strips to empty, no heading line
passes the length gate, so pass 2 accepts nothing. -/
theorem headingLine1b_ws (median : ℚ) (pn : Nat) (l : List Span1b)
    (hws : ∀ sp ∈ l, pyStrip sp.text = "") : headingLine1b median pn l = none := by
  cases l with
  | nil => rfl
  | cons sp rest =>
    have htws : ∀ c ∈ (joinSepStr " " ((sp :: rest).map (fun s => s.text))).data,
        isPySpace c = true := by
      unfold joinSepStr
      refine joinSepL_ws " ".data (by decide) _ ?_
      intro part hpart c hc
      rcases List.mem_map.mp hpart with ⟨txt, hmem, rfl⟩
      rcases List.mem_map.mp hmem with ⟨sp2, hsp2, rfl⟩
      exact (pyStrip_eq_empty_iff sp2.text).mp (hws sp2 hsp2) c hc
    have ht : pyStrip (joinSepStr " " ((sp :: rest).map (fun s => s.text))) = "" :=
      (pyStrip_eq_empty_iff _).mpr htws
    have hacc : acceptHeading1b median
        (pyStrip (joinSepStr " " ((sp :: rest).map (fun s => s.text)))) sp.size = false := by
      rw [ht]
      simp [acceptHeading1b]
    show (if acceptHeading1b median
        (pyStrip (joinSepStr " " ((sp :: rest).map (fun s => s.text)))) sp.size = true
      then some (⟨pyStrip (joinSepStr " " ((sp :: rest).map (fun s => s.text))), pn,
        sp.y⟩ : Hd1b)
      else none) = none
    rw [hacc]
    simp

/-- An empty pass-1 size collection means every span of the scanned
window strips to empty. -/
theorem fontSizes1b_eq_nil_spans (doc : Doc1b) (h : fontSizes1b doc = []) :
    ∀ pg ∈ scannedPages doc, ∀ b ∈ pg.blocks, ∀ l ∈ blockLines1b b, ∀ sp ∈ l,
      pyStrip sp.text = "" := by
  intro pg hpg b hb l hl sp hsp
  unfold fontSizes1b at h
  rw [List.flatten_eq_nil_iff] at h
  have h1 := h _ (List.mem_map_of_mem _ hpg)
  rw [List.flatten_eq_nil_iff] at h1
  have h2 := h1 _ (List.mem_map_of_mem _ hb)
  rw [List.flatten_eq_nil_iff] at h2
  have h3 := h2 _ (List.mem_map_of_mem _ hl)
  rw [List.map_eq_nil_iff, List.filter_eq_nil_iff] at h3
  have h4 := h3 sp hsp
  simpa using h4

/-- With every span stripping to empty, pass 2 finds no headings. -/
theorem headingsPages1b_ws (median : ℚ) :
    ∀ (pgs : List Page1b) (pn : Nat),
    (∀ pg ∈ pgs, ∀ b ∈ pg.blocks, ∀ l ∈ blockLines1b b, ∀ sp ∈ l, pyStrip sp.text = "") →
    headingsPages1b median pn pgs = [] := by
  intro pgs
  induction pgs with
  | nil => intro pn _; rfl
  | cons pg rest ih =>
    intro pn hws
    show headingsPage1b median pn pg ++ headingsPages1b median (pn + 1) rest = []
    rw [List.append_eq_nil]
    constructor
    · unfold headingsPage1b
      rw [List.filterMap_eq_nil_iff]
      intro l hl
      rcases List.mem_flatten.mp hl with ⟨ls, hls, hlmem⟩
      rcases List.mem_map.mp hls with ⟨b, hb, rfl⟩
      exact headingLine1b_ws median pn l
        (hws pg (List.mem_cons_self _ _) b hb l hlmem)
    · exact ih (pn + 1) (fun q hq => hws q (List.mem_cons_of_mem _ hq))

/-- With every span stripping to empty, the accepted heading list is
empty. -/
theorem acceptedHeads_of_ws (doc : Doc1b)
    (h : ∀ pg ∈ scannedPages doc, ∀ b ∈ pg.blocks, ∀ l ∈ blockLines1b b, ∀ sp ∈ l,
      pyStrip sp.text = "") : acceptedHeads doc = [] := by
  unfold acceptedHeads
  rw [headingsPages1b_ws _ (scannedPages doc) 0 h]
  rfl

/-- A zero-page document has no accepted headings. -/
theorem acceptedHeads_of_no_pages (doc : Doc1b) (h : doc.pages = []) :
    acceptedHeads doc = [] := by
  unfold acceptedHeads scannedPages
  rw [h]
  rfl

/-- With every span stripping to empty, the derived blocks-view text of
every block strips to empty as well. -/
theorem blockText1b_ws (b : Block1b)
    (h : ∀ l ∈ blockLines1b b, ∀ sp ∈ l, pyStrip sp.text = "") :
    pyStrip (blockText1b b) = "" := by
  rcases hb : b.lines with _ | ls
  · unfold blockText1b
    rw [hb]
    rfl
  · unfold blockText1b
    rw [hb]
    refine (pyStrip_eq_empty_iff _).mpr ?_
    unfold joinSepStr
    refine joinSepL_ws "\n".data (by decide) _ ?_
    intro part hpart c hc
    rcases List.mem_map.mp hpart with ⟨t2, hmem, rfl⟩
    rcases List.mem_map.mp hmem with ⟨l, hlm, rfl⟩
    have hl : l ∈ blockLines1b b := by
      unfold blockLines1b
      rw [hb]
      exact hlm
    refine joinSepL_ws "".data (fun c2 hc2 => absurd hc2 (List.not_mem_nil c2)) _ ?_ c hc
    intro part2 hpart2 c2 hc2
    rcases List.mem_map.mp hpart2 with ⟨t3, hmem3, rfl⟩
    rcases List.mem_map.mp hmem3 with ⟨sp, hsp, rfl⟩
    exact (pyStrip_eq_empty_iff sp.text).mp (h l hl sp hsp) c2 hc2

/-- Blocks whose text strips to empty produce no fallback sections. -/
theorem fallbackBlocks_ws (name : String) (pn : Nat) :
    ∀ (bs : List Block1b) (i : Nat),
    (∀ b ∈ bs, pyStrip (blockText1b b) = "") →
    fallbackBlocks name pn i bs = [] := by
  intro bs
  induction bs with
  | nil => intro i _; rfl
  | cons b rest ih =>
    intro i h
    show (if 150 < (pyReplaceChar (pyStrip (blockText1b b)) '\n' ' ').length then
        [(⟨name, pn + 1, syntheticTitle pn i,
          pyReplaceChar (pyStrip (blockText1b b)) '\n' ' ', none⟩ : Section1b)] else []) ++
      fallbackBlocks name pn (i + 1) rest = []
    rw [h b (List.mem_cons_self _ _)]
    rw [if_neg (by decide), List.nil_append]
    exact ih (i + 1) (fun b2 hb2 => h b2 (List.mem_cons_of_mem _ hb2))

/-- A window whose spans all strip to empty produces no fallback
sections: its derived block texts are all whitespace. -/
theorem fallbackPages_ws (name : String) :
    ∀ (pgs : List Page1b) (pn : Nat),
    (∀ pg ∈ pgs, ∀ b ∈ pg.blocks, ∀ l ∈ blockLines1b b, ∀ sp ∈ l, pyStrip sp.text = "") →
    fallbackPages name pn pgs = [] := by
  intro pgs
  induction pgs with
  | nil => intro pn _; rfl
  | cons pg rest ih =>
    intro pn h
    show fallbackBlocks name pn 0 pg.blocks ++ fallbackPages name (pn + 1) rest = []
    rw [fallbackBlocks_ws name pn pg.blocks 0 (fun b hb =>
      blockText1b_ws b (h pg (List.mem_cons_self _ _) b hb)), List.nil_append]
    exact ih (pn + 1) (fun q hq => h q (List.mem_cons_of_mem _ hq))

/-- Membership in the fallback sections of one page: exactly the blocks
whose stripped text exceeds 150 characters contribute, each with the
synthetic title indexed by its position in the full block list. -/
theorem mem_fallbackBlocks (name : String) (pn : Nat) :
    ∀ (bs : List Block1b) (i : Nat) (s : Section1b),
    s ∈ fallbackBlocks name pn i bs ↔
      ∃ j, j < bs.length ∧
        150 < (pyReplaceChar (pyStrip (blockText1b (bs.getD j ⟨none⟩))) '\n' ' ').length ∧
        s = ⟨name, pn + 1, syntheticTitle pn (i + j),
          pyReplaceChar (pyStrip (blockText1b (bs.getD j ⟨none⟩))) '\n' ' ', none⟩ := by
  intro bs
  induction bs with
  | nil =>
    intro i s
    constructor
    · intro h
      cases h
    · rintro ⟨j, hj, -⟩
      exact absurd hj (Nat.not_lt_zero j)
  | cons b rest ih =>
    intro i s
    show s ∈ (if 150 < (pyReplaceChar (pyStrip (blockText1b b)) '\n' ' ').length then
        [(⟨name, pn + 1, syntheticTitle pn i,
          pyReplaceChar (pyStrip (blockText1b b)) '\n' ' ', none⟩ : Section1b)] else []) ++
        fallbackBlocks name pn (i + 1) rest ↔ _
    rw [List.mem_append]
    constructor
    · rintro (hs | hs)
      · by_cases hlen : 150 < (pyReplaceChar (pyStrip (blockText1b b)) '\n' ' ').length
        · rw [if_pos hlen] at hs
          obtain rfl := List.mem_singleton.mp hs
          refine ⟨0, Nat.succ_pos _, ?_, ?_⟩
          · simpa only [List.getD_cons_zero] using hlen
          · simp only [List.getD_cons_zero, Nat.add_zero]
        · rw [if_neg hlen] at hs
          cases hs
      · obtain ⟨j, hj, hcond, hs_eq⟩ := (ih (i + 1) s).mp hs
        have e : i + 1 + j = i + (j + 1) := by omega
        rw [e] at hs_eq
        refine ⟨j + 1, by simp only [List.length_cons]; omega, ?_, ?_⟩
        · simpa only [List.getD_cons_succ] using hcond
        · simpa only [List.getD_cons_succ] using hs_eq
    · rintro ⟨j, hj, hcond, hs_eq⟩
      cases j with
      | zero =>
        left
        simp only [List.getD_cons_zero] at hcond hs_eq
        rw [Nat.add_zero] at hs_eq
        rw [if_pos hcond]
        exact List.mem_singleton.mpr hs_eq
      | succ j =>
        right
        simp only [List.getD_cons_succ] at hcond hs_eq
        simp only [List.length_cons] at hj
        refine (ih (i + 1) s).mpr ⟨j, by omega, hcond, ?_⟩
        have e : i + 1 + j = i + (j + 1) := by omega
        rw [e]
        exact hs_eq

/-- Membership in the fallback sections of the whole scanned window. -/
theorem mem_fallbackPages (name : String) :
    ∀ (pgs : List Page1b) (pn : Nat) (s : Section1b),
    s ∈ fallbackPages name pn pgs ↔
      ∃ q, q < pgs.length ∧
        s ∈ fallbackBlocks name (pn + q) 0 (pgs.getD q ⟨0, 0, [], fun _ _ => ""⟩).blocks := by
  intro pgs
  induction pgs with
  | nil =>
    intro pn s
    constructor
    · intro h
      cases h
    · rintro ⟨q, hq, -⟩
      exact absurd hq (Nat.not_lt_zero q)
  | cons pg rest ih =>
    intro pn s
    show s ∈ fallbackBlocks name pn 0 pg.blocks ++ fallbackPages name (pn + 1) rest ↔ _
    rw [List.mem_append]
    constructor
    · rintro (hs | hs)
      · refine ⟨0, Nat.succ_pos _, ?_⟩
        simpa only [List.getD_cons_zero, Nat.add_zero] using hs
      · obtain ⟨q, hq, hmem⟩ := (ih (pn + 1) s).mp hs
        have e : pn + 1 + q = pn + (q + 1) := by omega
        rw [e] at hmem
        refine ⟨q + 1, by simp only [List.length_cons]; omega, ?_⟩
        simpa only [List.getD_cons_succ] using hmem
    · rintro ⟨q, hq, hmem⟩
      cases q with
      | zero =>
        left
        simpa only [List.getD_cons_zero, Nat.add_zero] using hmem
      | succ q =>
        right
        simp only [List.getD_cons_succ] at hmem
        simp only [List.length_cons] at hq
        refine (ih (pn + 1) s).mpr ⟨q, by omega, ?_⟩
        have e : pn + 1 + q = pn + (q + 1) := by omega
        rw [e]
        exact hmem

/-- C5: the fallback path is taken exactly when zero headings were
accepted (including the degenerate zero-page and no-visible-text
windows, where the fallback output is the empty section list), the
heading path exactly otherwise, and the fallback output consists of
precisely the blocks whose stripped, newline-collapsed text exceeds 150
characters, each titled `Page n, Section m` by 1-based page number and
1-based block position. -/
theorem fallback_trigger_contract (name : String) (doc : Doc1b) :
    (acceptedHeads doc = [] →
      extractSections name doc = fallbackPages name 0 (scannedPages doc)) ∧
    (acceptedHeads doc ≠ [] →
      extractSections name doc =
        sectionsFromHeads name doc (min doc.pages.length MAX_PAGES_TO_PROCESS)
          (acceptedHeads doc)) ∧
    (∀ s : Section1b, s ∈ fallbackPages name 0 (scannedPages doc) ↔
      ∃ pn j, pn < (scannedPages doc).length ∧
        j < ((scannedPages doc).getD pn ⟨0, 0, [], fun _ _ => ""⟩).blocks.length ∧
        150 < (pyReplaceChar (pyStrip (blockText1b
          (((scannedPages doc).getD pn ⟨0, 0, [], fun _ _ => ""⟩).blocks.getD j ⟨none⟩)))
          '\n' ' ').length ∧
        s = ⟨name, pn + 1, syntheticTitle pn j,
          pyReplaceChar (pyStrip (blockText1b
            (((scannedPages doc).getD pn ⟨0, 0, [], fun _ _ => ""⟩).blocks.getD j ⟨none⟩)))
            '\n' ' ', none⟩) := by
  refine ⟨?_, ?_, ?_⟩
  · intro hA
    unfold extractSections
    by_cases hpg : doc.pages.length = 0
    · rw [if_pos hpg]
      have hsc : scannedPages doc = [] := by
        unfold scannedPages
        rw [List.length_eq_zero.mp hpg]
        rfl
      rw [hsc]
      rfl
    · rw [if_neg hpg]
      by_cases hfs : fontSizes1b doc = []
      · rw [if_pos hfs]
        exact (fallbackPages_ws name (scannedPages doc) 0
          (fontSizes1b_eq_nil_spans doc hfs)).symm
      · rw [if_neg hfs, if_pos hA]
  · intro hA
    unfold extractSections
    have hpg : ¬ doc.pages.length = 0 := by
      intro h
      exact hA (acceptedHeads_of_no_pages doc (List.length_eq_zero.mp h))
    have hfs : ¬ fontSizes1b doc = [] := by
      intro h
      exact hA (acceptedHeads_of_ws doc (fontSizes1b_eq_nil_spans doc h))
    rw [if_neg hpg, if_neg hfs, if_neg hA]
  · intro s
    rw [mem_fallbackPages name (scannedPages doc) 0 s]
    constructor
    · rintro ⟨q, hq, hmem⟩
      rw [mem_fallbackBlocks] at hmem
      obtain ⟨j, hj, hcond, hs_eq⟩ := hmem
      simp only [Nat.zero_add] at hj hcond hs_eq
      exact ⟨q, j, hq, hj, hcond, hs_eq⟩
    · rintro ⟨pn, j, hpn, hj, hcond, hs_eq⟩
      refine ⟨pn, hpn, ?_⟩
      rw [mem_fallbackBlocks]
      refine ⟨j, ?_, ?_, ?_⟩
      · simpa only [Nat.zero_add] using hj
      · simpa only [Nat.zero_add] using hcond
      · simpa only [Nat.zero_add] using hs_eq

set_option maxRecDepth 8000 in
/-- C5 witness: the heading-free one-paragraph document takes the
fallback path and yields exactly one synthetic section. -/
theorem fallback_trigger_contract_witness :
    extractSections "report.pdf" demoFallbackDoc =
      fallbackPages "report.pdf" 0 (scannedPages demoFallbackDoc) ∧
    fallbackPages "report.pdf" 0 (scannedPages demoFallbackDoc) =
      [⟨"report.pdf", 1, "Page 1, Section 1", longBlockText, none⟩] :=
  ⟨(fallback_trigger_contract "report.pdf" demoFallbackDoc).1
      (by with_unfolding_all decide),
   by with_unfolding_all decide⟩
